import Mathlib

/-!
Verification development for the Zenith backend (src/app.py, src/backboard_service.py).

Part 1 embeds the transaction rule engine of src/app.py: the handlers
transaction_attempt (lines 260-317), purchase_execute (lines 603-633) and
add_income (lines 636-657), acting on a per-user ledger state (balance,
stress level, append-only transaction log).  Monetary values are modelled as
exact rationals; the non-finite floats inf, -inf and nan are modelled as
their own constructors because the Python comparison operators treat them
specially in the validation checks.
-/

namespace Zenith

/-- Status column of a row in the transactions table. -/
inductive TxStatus
  | ALLOWED
  | BLOCKED
  | INCOME
deriving DecidableEq, Repr

/-- A Python numeric amount as it reaches the handlers: a finite int or float
(represented exactly as a rational), or one of the non-finite floats. -/
inductive Amount
  | fin (q : Rat)
  | inf
  | ninf
  | nan
deriving DecidableEq, Repr

/-- The JSON value bound to "amount" in a request body: either a number, or
anything else (string, null, list, object), for which the check
isinstance(amount, (int, float)) in transaction_attempt is False. -/
inductive AmountVal
  | num (a : Amount)
  | nonNum
deriving DecidableEq, Repr

/-- The Python comparison `amount <= 0` used by the validation checks:
False for nan (all nan comparisons are False) and for +inf, True for -inf. -/
def Amount.leZero : Amount → Bool
  | .fin q => q ≤ 0
  | .inf => false
  | .ninf => true
  | .nan => false

/-- The Python comparison `amount > 50` of the stress-impulse rule:
True for +inf, False for nan and -inf. -/
def Amount.gtFifty : Amount → Bool
  | .fin q => 50 < q
  | .inf => true
  | .ninf => false
  | .nan => false

/-- The SQL condition `balance >= ?` of the conditional
UPDATE users SET balance = balance - ? WHERE id = ? AND balance >= ?.
False when the bound amount is +inf or nan (a nan bind never satisfies the
comparison), True for -inf. -/
def balGe (balance : Rat) : Amount → Bool
  | .fin q => q ≤ balance
  | .inf => false
  | .ninf => true
  | .nan => false

/-- The rational value used in balance arithmetic.  Only finite amounts reach
the UPDATE that debits the balance: non-positive amounts (hence -inf) are
rejected by the validation check first, and the `balance >= ?` condition
fails for +inf and nan, so the junk value 0 for the non-finite cases is
never used by a reachable debit. -/
def Amount.toRat : Amount → Rat
  | .fin q => q
  | .inf => 0
  | .ninf => 0
  | .nan => 0

/-- One immutable row of the transactions table (the user_id column is
implicit: the state below is the state of one authenticated user). -/
structure Transaction where
  item_name : String
  amount : Amount
  status : TxStatus
deriving DecidableEq, Repr

/-- Per-user ledger state: the balance and stress_level columns of the users
row and this user's slice of the append-only transactions table.
stress_level is the effective value `user["stress_level"] if
user["stress_level"] else 0` read by transaction_attempt. -/
structure LedgerState where
  balance : Rat
  stress_level : Int
  log : List Transaction
deriving DecidableEq, Repr

/-- The JSON response of a purchase/income handler, abstracted:
a 400 validation error, a BLOCKED decision with its reason, an ALLOWED
decision carrying the new balance, or the income success response. -/
inductive Outcome
  | error (msg : String)
  | blocked (reason : String)
  | allowed (new_balance : Rat)
  | income (new_balance : Rat)
deriving DecidableEq, Repr

/-- src/app.py transaction_attempt (lines 260-317) for the authenticated
user: validate the amount (`not isinstance(amount, (int, float)) or
amount <= 0` yields a 400 error), then the stress-impulse rule
(`stress_level > 7 and amount > 50` yields BLOCKED and logs the row), then
the conditional UPDATE affordability rule (rowcount 0 yields BLOCKED and
logs the row), otherwise the debit happened and the row is logged ALLOWED
with the freshly read balance. -/
def transaction_attempt (amount : AmountVal) (item_name : String) (st : LedgerState) :
    Outcome × LedgerState :=
  match amount with
  | .nonNum => (.error "Amount must be a positive number", st)
  | .num a =>
    if a.leZero then (.error "Amount must be a positive number", st)
    else if 7 < st.stress_level ∧ a.gtFifty then
      (.blocked "High stress impulse buy detected.",
        { st with log := st.log ++ [⟨item_name, a, .BLOCKED⟩] })
    else if balGe st.balance a then
      (.allowed (st.balance - a.toRat),
        { st with balance := st.balance - a.toRat,
                  log := st.log ++ [⟨item_name, a, .ALLOWED⟩] })
    else
      (.blocked "Insufficient funds.",
        { st with log := st.log ++ [⟨item_name, a, .BLOCKED⟩] })

/-- src/app.py purchase_execute (lines 603-633): the execute-after-AI
evaluation path.  Validates `amount <= 0` only, then runs the same
conditional UPDATE affordability check and logging as transaction_attempt;
there is no stress-impulse rule on this path. -/
def purchase_execute (a : Amount) (item_name : String) (st : LedgerState) :
    Outcome × LedgerState :=
  if a.leZero then (.error "Amount must be positive", st)
  else if balGe st.balance a then
    (.allowed (st.balance - a.toRat),
      { st with balance := st.balance - a.toRat,
                log := st.log ++ [⟨item_name, a, .ALLOWED⟩] })
  else
    (.blocked "Insufficient funds.",
      { st with log := st.log ++ [⟨item_name, a, .BLOCKED⟩] })

/-- src/app.py add_income (lines 636-657) restricted to a finite converted
amount q: validate `amount <= 0`, then credit the balance unconditionally
and log an INCOME row named "Income: " + source.  The non-finite amounts
+inf and nan also pass the validation check in the source; they are carried
by add_income_x in the extended model below, of which this function is the
finite restriction (agreement lemma add_income_x_agrees). -/
def add_income (q : Rat) (source : String) (st : LedgerState) :
    Outcome × LedgerState :=
  if q ≤ 0 then (.error "Amount must be positive", st)
  else
    (.income (st.balance + q),
      { st with balance := st.balance + q,
                log := st.log ++ [⟨"Income: " ++ source, .fin q, .INCOME⟩] })

/-!
Extended ledger model.  The validation check `amount <= 0` lets the
non-finite floats +inf and nan through (both comparisons are False), so the
balance column can leave the finite range: SQLite stores a nan bind as
NULL, stores NULL for a NaN arithmetic result (Infinity - Infinity), keeps
Infinity as the largest REAL, and a NULL operand gives a NULL result and
satisfies no comparison.  The full model below carries that column domain;
the finite-balance model above is its exact restriction (agreement lemmas
in the theorem section).
-/

/-- The balance column as SQLite can hold it: a finite REAL, positive or
negative Infinity, or NULL (a nan bind and a NaN arithmetic result are both
stored as NULL). -/
inductive BalCol
  | val (q : Rat)
  | inf
  | ninf
  | null
deriving DecidableEq, Repr

/-- SQL `balance >= ?` on the full column domain: a NULL balance satisfies
nothing, a nan bind (NULL parameter) is satisfied by nothing, Infinity is
the largest REAL and -Infinity the smallest. -/
def balGeX : BalCol → Amount → Bool
  | .null, _ => false
  | .val b, .fin q => q ≤ b
  | .val _, .inf => false
  | .val _, .ninf => true
  | .val _, .nan => false
  | .inf, .fin _ => true
  | .inf, .inf => true
  | .inf, .ninf => true
  | .inf, .nan => false
  | .ninf, .fin _ => false
  | .ninf, .inf => false
  | .ninf, .ninf => true
  | .ninf, .nan => false

/-- SQL `balance - ?` of the debit UPDATE on the full domain
(Infinity - Infinity is NaN, stored as NULL; a NULL operand gives NULL). -/
def balSubX : BalCol → Amount → BalCol
  | .val b, .fin q => .val (b - q)
  | .val _, .inf => .ninf
  | .val _, .ninf => .inf
  | .val _, .nan => .null
  | .inf, .fin _ => .inf
  | .inf, .inf => .null
  | .inf, .ninf => .inf
  | .inf, .nan => .null
  | .ninf, .fin _ => .ninf
  | .ninf, .inf => .ninf
  | .ninf, .ninf => .null
  | .ninf, .nan => .null
  | .null, _ => .null

/-- SQL `balance + ?` of the income UPDATE on the full domain. -/
def balAddX : BalCol → Amount → BalCol
  | .val b, .fin q => .val (b + q)
  | .val _, .inf => .inf
  | .val _, .ninf => .ninf
  | .val _, .nan => .null
  | .inf, .fin _ => .inf
  | .inf, .inf => .inf
  | .inf, .ninf => .null
  | .inf, .nan => .null
  | .ninf, .fin _ => .ninf
  | .ninf, .inf => .null
  | .ninf, .ninf => .ninf
  | .ninf, .nan => .null
  | .null, _ => .null

/-- Per-user ledger state over the full balance column domain. -/
structure LedgerStateX where
  balance : BalCol
  stress_level : Int
  log : List Transaction
deriving DecidableEq, Repr

/-- Handler response over the full domain (the new balance read back by the
handler can be NULL or Infinity). -/
inductive OutcomeX
  | error (msg : String)
  | blocked (reason : String)
  | allowed (new_balance : BalCol)
  | income (new_balance : BalCol)
deriving DecidableEq, Repr

/-- src/app.py transaction_attempt (lines 260-317) over the full balance
column domain: identical control flow to transaction_attempt above, with
the SQL comparison and arithmetic extended to NULL and the infinities. -/
def transaction_attempt_x (amount : AmountVal) (item_name : String) (st : LedgerStateX) :
    OutcomeX × LedgerStateX :=
  match amount with
  | .nonNum => (.error "Amount must be a positive number", st)
  | .num a =>
    if a.leZero then (.error "Amount must be a positive number", st)
    else if 7 < st.stress_level ∧ a.gtFifty then
      (.blocked "High stress impulse buy detected.",
        { st with log := st.log ++ [⟨item_name, a, .BLOCKED⟩] })
    else if balGeX st.balance a then
      (.allowed (balSubX st.balance a),
        { st with balance := balSubX st.balance a,
                  log := st.log ++ [⟨item_name, a, .ALLOWED⟩] })
    else
      (.blocked "Insufficient funds.",
        { st with log := st.log ++ [⟨item_name, a, .BLOCKED⟩] })

/-- src/app.py purchase_execute (lines 603-633) over the full balance
column domain. -/
def purchase_execute_x (a : Amount) (item_name : String) (st : LedgerStateX) :
    OutcomeX × LedgerStateX :=
  if a.leZero then (.error "Amount must be positive", st)
  else if balGeX st.balance a then
    (.allowed (balSubX st.balance a),
      { st with balance := balSubX st.balance a,
                log := st.log ++ [⟨item_name, a, .ALLOWED⟩] })
  else
    (.blocked "Insufficient funds.",
      { st with log := st.log ++ [⟨item_name, a, .BLOCKED⟩] })

/-- src/app.py add_income (lines 636-657) over the full amount and balance
domain: `amount <= 0` rejects -inf but lets +inf and nan through; the
credit UPDATE then runs unconditionally. -/
def add_income_x (a : Amount) (source : String) (st : LedgerStateX) :
    OutcomeX × LedgerStateX :=
  if a.leZero then (.error "Amount must be positive", st)
  else
    (.income (balAddX st.balance a),
      { st with balance := balAddX st.balance a,
                log := st.log ++ [⟨"Income: " ++ source, a, .INCOME⟩] })

/-- Whether the stored balance is a nonnegative number in the sense of the
SQL comparison (NULL is not a number at all; -Infinity is negative). -/
def balNonNegX : BalCol → Bool
  | .val q => 0 ≤ q
  | .inf => true
  | .ninf => false
  | .null => false

/-- The injection of a finite handler response into the full domain. -/
def liftOutcome : Outcome → OutcomeX
  | .error m => .error m
  | .blocked r => .blocked r
  | .allowed q => .allowed (.val q)
  | .income q => .income (.val q)

/-- The injection of a finite ledger state into the full domain. -/
def liftState (st : LedgerState) : LedgerStateX :=
  ⟨.val st.balance, st.stress_level, st.log⟩

/-- One rule-engine event of a run: a purchase evaluation through
transaction_attempt with a finite amount, or an income addition through
add_income. -/
inductive Op
  | purchase (q : Rat) (item : String)
  | income (q : Rat) (source : String)
deriving DecidableEq, Repr

/-- The handler invoked for an event, together with its outcome. -/
def opResult (st : LedgerState) : Op → Outcome × LedgerState
  | .purchase q item => transaction_attempt (.num (.fin q)) item st
  | .income q source => add_income q source st

/-- The state after an event. -/
def applyOp (st : LedgerState) (op : Op) : LedgerState := (opResult st op).2

/-- The state after a sequence of events. -/
def runOps (st : LedgerState) (ops : List Op) : LedgerState := ops.foldl applyOp st

/-- The amount carried by an event. -/
def Op.amount : Op → Rat
  | .purchase q _ => q
  | .income q _ => q

/-- The handler invoked for an event, on the full balance column domain. -/
def opResultX (st : LedgerStateX) : Op → OutcomeX × LedgerStateX
  | .purchase q item => transaction_attempt_x (.num (.fin q)) item st
  | .income q source => add_income_x (.fin q) source st

/-- The full-domain state after an event. -/
def applyOpX (st : LedgerStateX) (op : Op) : LedgerStateX := (opResultX st op).2

/-- The full-domain state after a sequence of events. -/
def runOpsX (st : LedgerStateX) (ops : List Op) : LedgerStateX := ops.foldl applyOpX st

/-- The transaction status a full-domain handler outcome corresponds to. -/
def OutcomeX.toStatus : OutcomeX → Option TxStatus
  | .error _ => none
  | .blocked _ => some .BLOCKED
  | .allowed _ => some .ALLOWED
  | .income _ => some .INCOME

/-- Sum of the amounts of the log rows having the given status. -/
def statusSum (s : TxStatus) (log : List Transaction) : Rat :=
  (log.map fun t => if t.status = s then t.amount.toRat else 0).sum

/-- The transaction status a handler outcome corresponds to (none for a
validation error, which logs nothing). -/
def Outcome.toStatus : Outcome → Option TxStatus
  | .error _ => none
  | .blocked _ => some .BLOCKED
  | .allowed _ => some .ALLOWED
  | .income _ => some .INCOME

/-- The conserved quantity of the ledger: balance plus everything spent on
ALLOWED rows minus everything received on INCOME rows. -/
def net (st : LedgerState) : Rat :=
  st.balance + statusSum .ALLOWED st.log - statusSum .INCOME st.log

/-!
Part 2 embeds the AI session cache of src/backboard_service.py: the
ai_assistants and user_threads tables (assoc lists keyed like the SQL
tables), the remote backboard API as a pure environment, the markdown
stripping of send_message (lines 150-156), build_context_message
(lines 161-203), chat_with_ai (lines 215-240), reset_ai_cache
(lines 206-212) and the ai_reset route of src/app.py (lines 518-524).
-/

/-- First row whose key matches, as SELECT ... fetchone. -/
def alookup {κ ω : Type} [DecidableEq κ] : List (κ × ω) → κ → Option ω
  | [], _ => none
  | (k, v) :: rest, key => if k = key then some v else alookup rest key

/-- INSERT OR REPLACE keyed by the unique column. -/
def aupdate {κ ω : Type} [DecidableEq κ] : List (κ × ω) → κ → ω → List (κ × ω)
  | [], key, v => [(key, v)]
  | (k, w) :: rest, key, v =>
      if k = key then (key, v) :: rest else (k, w) :: aupdate rest key v

/-- The ai_assistants table (name → assistant_id) and the user_threads table
((user_id, assistant_name) → (thread_id, initialized)). -/
structure AIDb where
  assistants : List (String × String)
  threads : List ((Nat × String) × (String × Bool))
deriving DecidableEq, Repr

def lookupAssistant (db : AIDb) (sec : String) : Option String :=
  alookup db.assistants sec

def insertAssistant (db : AIDb) (sec aid : String) : AIDb :=
  { db with assistants := aupdate db.assistants sec aid }

def lookupThread (db : AIDb) (user : Nat) (sec : String) : Option (String × Bool) :=
  alookup db.threads (user, sec)

def insertThread (db : AIDb) (user : Nat) (sec tid : String) (b : Bool) : AIDb :=
  { db with threads := aupdate db.threads (user, sec) (tid, b) }

/-- UPDATE user_threads SET initialized = 1 WHERE user_id = ? AND assistant_name = ?. -/
def setInitRows : List ((Nat × String) × (String × Bool)) → (Nat × String) →
    List ((Nat × String) × (String × Bool))
  | [], _ => []
  | (k, tid, b) :: rest, key =>
      if k = key then (k, tid, true) :: setInitRows rest key
      else (k, tid, b) :: setInitRows rest key

def setInitialized (db : AIDb) (user : Nat) (sec : String) : AIDb :=
  { db with threads := setInitRows db.threads (user, sec) }

/-- Outcome of one POST to the backboard API: a transport failure or raised
exception, a non-200 status, or a 200 response whose reply text is the first
truthy of the alternate JSON fields (none when all are missing or empty). -/
inductive PostOutcome
  | exn
  | httpError
  | ok (raw : Option String)
deriving DecidableEq, Repr

/-- The remote backboard API as a pure environment: assistant creation
(some id on success), thread creation under an assistant id, and message
posting keyed by thread id and content. -/
structure Remote where
  createAssistant : String → Option String
  createThread : String → Option String
  post : String → String → PostOutcome

/-- Python re whitespace class of the patterns below. -/
def isPySpace (c : Char) : Bool :=
  c = ' ' ∨ c = '\t' ∨ c = '\n' ∨ c = '\r' ∨ c = '\x0b' ∨ c = '\x0c'

/-- Minimal-length closing search for a two-character delimiter pair, as the
non-greedy (.+?) between doubled delimiters: at least one content character,
no newline in the content (re . does not match newline), first closing pair
wins.  Returns the content and the text after the closing pair. -/
def findClose2 (ch : Char) (acc : List Char) : List Char → Option (List Char × List Char)
  | c1 :: c2 :: rest =>
      if c1 = ch ∧ c2 = ch ∧ acc ≠ [] then some (acc.reverse, rest)
      else if c1 = '\n' then none
      else findClose2 ch (c1 :: acc) (c2 :: rest)
  | _ => none

/-- Minimal-length closing search for a single-character delimiter. -/
def findClose1 (ch : Char) (acc : List Char) : List Char → Option (List Char × List Char)
  | c :: rest =>
      if c = ch ∧ acc ≠ [] then some (acc.reverse, rest)
      else if c = '\n' then none
      else findClose1 ch (c :: acc) rest
  | [] => none

/-- re.sub of a doubled-delimiter emphasis pattern with its group, e.g.
bold (doubled star) and bold-alt (doubled underscore): leftmost match, scan
resumes after the match. -/
def subDouble (ch : Char) : Nat → List Char → List Char
  | 0, cs => cs
  | _ + 1, [] => []
  | fuel + 1, c1 :: rest0 =>
      match rest0 with
      | c2 :: rest =>
          if c1 = ch ∧ c2 = ch then
            match findClose2 ch [] rest with
            | some (content, rest2) => content ++ subDouble ch fuel rest2
            | none => c1 :: subDouble ch fuel rest0
          else c1 :: subDouble ch fuel rest0
      | [] => [c1]

/-- re.sub of the single-star italic pattern with its group. -/
def subSingle (ch : Char) : Nat → List Char → List Char
  | 0, cs => cs
  | _ + 1, [] => []
  | fuel + 1, c :: rest =>
      if c = ch then
        match findClose1 ch [] rest with
        | some (content, rest2) => content ++ subSingle ch fuel rest2
        | none => c :: subSingle ch fuel rest
      else c :: subSingle ch fuel rest

/-- Length of the leading run of a character. -/
def runLen (ch : Char) : List Char → Nat × List Char
  | c :: rest =>
      if c = ch then
        let (n, r) := runLen ch rest
        (n + 1, r)
      else (0, c :: rest)
  | [] => (0, [])

/-- Maximal leading run of re whitespace. -/
def spanSpace : List Char → List Char × List Char
  | c :: rest =>
      if isPySpace c then
        let (a, b) := spanSpace rest
        (c :: a, b)
      else ([], c :: rest)
  | [] => ([], [])

/-- Whether the consumed whitespace run ends in a newline, which makes the
resumption point a line start for the MULTILINE anchor. -/
def endsNewline (sp : List Char) : Bool := sp.getLast? = some '\n'

/-- re.sub with MULTILINE of the heading pattern (one to six hashes anchored
at a line start, followed by whitespace) with the empty string. -/
def subHeading : Nat → Bool → List Char → List Char
  | 0, _, cs => cs
  | _ + 1, _, [] => []
  | fuel + 1, atStart, c :: rest =>
      if atStart ∧ c = '#' then
        let (n, r) := runLen '#' (c :: rest)
        match r with
        | c2 :: _ =>
            if n ≤ 6 ∧ isPySpace c2 then
              let (sp, r2) := spanSpace r
              subHeading fuel (endsNewline sp) r2
            else c :: subHeading fuel false rest
        | [] => c :: subHeading fuel false rest
      else c :: subHeading fuel (c = '\n') rest

/-- re.sub with MULTILINE of the bullet pattern (a dash or star anchored at
a line start, followed by whitespace) with the empty string. -/
def subBullet : Nat → Bool → List Char → List Char
  | 0, _, cs => cs
  | _ + 1, _, [] => []
  | fuel + 1, atStart, c :: rest =>
      if atStart ∧ (c = '-' ∨ c = '*') then
        match rest with
        | c2 :: _ =>
            if isPySpace c2 then
              let (sp, r2) := spanSpace rest
              subBullet fuel (endsNewline sp) r2
            else c :: subBullet fuel false rest
        | [] => c :: subBullet fuel false rest
      else c :: subBullet fuel (c = '\n') rest

/-- The markdown stripping of send_message (backboard_service.py lines
150-155): bold, bold-alt, italic, headings, bullet points, in this order. -/
def strip_markdown (s : String) : String :=
  let l0 := s.data
  let l1 := subDouble '*' l0.length l0
  let l2 := subDouble '_' l1.length l1
  let l3 := subSingle '*' l2.length l2
  let l4 := subHeading l3.length true l3
  let l5 := subBullet l4.length true l4
  String.mk l5

/-- src/backboard_service.py send_message (lines 135-159): post the content
to the thread; a raised exception yields the temporarily-unavailable text, a
non-200 status yields the returned-an-error text, otherwise the reply is the
first truthy alternate field (or the could-not-process default) with
markdown markup stripped. -/
def send_message (env : Remote) (thread_id content : String) : String :=
  match env.post thread_id content with
  | .exn => "Sorry, the AI is temporarily unavailable. Please try again."
  | .httpError => "Sorry, the AI returned an error. Please try again."
  | .ok raw => strip_markdown (raw.getD "Sorry, I couldn\x27t process that right now.")

/-- The survey_data dict: each scalar field is some value when the key is
present (the value being the string shown by the f-string), none when
missing; list fields default to the empty list.  A missing dict (None or {},
both falsy) is modelled as none at the use sites. -/
structure Survey where
  name : Option String
  age_range : Option String
  occupation : Option String
  education_level : Option String
  subjects : List String
  learning_style : Option String
  study_goals : List String
  spending_profile : Option String
  income_range : Option String
  savings : Option String
  financial_goals : List String
  balance_repr : Option String
  exercise_frequency : Option String
  sleep_quality : Option String
  diet_quality : Option String
  health_goals : List String
  stress_repr : Option String
deriving DecidableEq, Repr

/-- " | ".join of the parts list. -/
def joinBar : List String → String
  | [] => ""
  | [p] => p
  | p :: rest => p ++ " | " ++ joinBar rest

/-- ", ".join of a list field. -/
def joinComma : List String → String
  | [] => ""
  | [p] => p
  | p :: rest => p ++ ", " ++ joinComma rest

/-- src/backboard_service.py build_context_message (lines 161-203): empty
for a falsy survey; otherwise the name part, the optional age and occupation
parts (skipped when missing or empty), the topic-specific parts, joined
with the bar delimiter. -/
def build_context_message (sec : String) (survey : Option Survey) : String :=
  match survey with
  | none => ""
  | some s =>
    let base := ["User: " ++ s.name.getD "User"]
      ++ (if s.age_range.getD "" ≠ "" then ["Age: " ++ s.age_range.getD ""] else [])
      ++ (if s.occupation.getD "" ≠ "" then ["Occupation: " ++ s.occupation.getD ""] else [])
    let parts :=
      if sec = "scholar" then
        base ++ ["Education: " ++ s.education_level.getD "N/A"]
          ++ (if s.subjects ≠ [] then ["Interests: " ++ joinComma s.subjects] else [])
          ++ ["Learning style: " ++ s.learning_style.getD "N/A"]
          ++ (if s.study_goals ≠ [] then ["Study goals: " ++ joinComma s.study_goals] else [])
      else if sec = "guardian" then
        base ++ ["Spending profile: " ++ s.spending_profile.getD "N/A",
                 "Income: " ++ s.income_range.getD "N/A",
                 "Savings: " ++ s.savings.getD "N/A"]
          ++ (if s.financial_goals ≠ [] then
                ["Financial goals: " ++ joinComma s.financial_goals] else [])
          ++ ["Balance: $" ++ s.balance_repr.getD "0"]
      else if sec = "vitals" then
        base ++ ["Exercise: " ++ s.exercise_frequency.getD "N/A",
                 "Sleep: " ++ s.sleep_quality.getD "N/A",
                 "Diet: " ++ s.diet_quality.getD "N/A"]
          ++ (if s.health_goals ≠ [] then ["Health goals: " ++ joinComma s.health_goals] else [])
          ++ ["Stress: " ++ s.stress_repr.getD "N/A" ++ "/10"]
      else base
    joinBar parts

/-- src/backboard_service.py get_or_create_assistant (lines 51-89): serve
the cached binding, otherwise call the remote API; on success cache and
return the new id, on failure (exception, or no id field in the response)
return none and cache nothing. -/
def get_or_create_assistant (env : Remote) (db : AIDb) (sec : String) :
    Option String × AIDb :=
  match lookupAssistant db sec with
  | some aid => (some aid, db)
  | none =>
    match env.createAssistant sec with
    | some aid => (some aid, insertAssistant db sec aid)
    | none => (none, db)

/-- src/backboard_service.py get_or_create_thread (lines 92-132): serve the
cached (thread_id, initialized) row; otherwise resolve the assistant, create
a remote thread under it, and cache the new row with initialized = 0. -/
def get_or_create_thread (env : Remote) (db : AIDb) (user : Nat) (sec : String) :
    (Option String × Bool) × AIDb :=
  match lookupThread db user sec with
  | some (tid, b) => ((some tid, b), db)
  | none =>
    match get_or_create_assistant env db sec with
    | (none, db1) => ((none, false), db1)
    | (some aid, db1) =>
      match env.createThread aid with
      | some tid => ((some tid, false), insertThread db1 user sec tid false)
      | none => ((none, false), db1)

/-- The synthetic context-priming message of chat_with_ai (lines 224-228). -/
def primingText (context : String) : String :=
  "[User Profile] " ++ context ++ ". Remember this about me for all our conversations."

/-- Result of one chat_with_ai call: the returned reply, the table state
after the call, and the trace of message posts made to the remote thread, in
order. -/
structure ChatResult where
  reply : String
  db : AIDb
  posts : List (String × String)
deriving DecidableEq, Repr

/-- src/backboard_service.py chat_with_ai (lines 215-240): resolve or create
the thread (fixed unavailability text when that fails); when the thread is
not initialized and the survey is truthy and the built context is nonempty,
post the priming message (its return value is discarded) and mark the row
initialized; finally post the actual message and return its reply. -/
def chat_with_ai (env : Remote) (db : AIDb) (user : Nat) (sec : String)
    (message : String) (survey : Option Survey) : ChatResult :=
  match get_or_create_thread env db user sec with
  | ((none, _), db1) => ⟨"Sorry, the AI service is currently unavailable.", db1, []⟩
  | ((some tid, initd), db1) =>
    match initd, survey with
    | false, some s =>
      let context := build_context_message sec (some s)
      if context = "" then ⟨send_message env tid message, db1, [(tid, message)]⟩
      else
        ⟨send_message env tid message, setInitialized db1 user sec,
         [(tid, primingText context), (tid, message)]⟩
    | _, _ => ⟨send_message env tid message, db1, [(tid, message)]⟩

/-- src/backboard_service.py reset_ai_cache (lines 206-212): DELETE FROM
ai_assistants and DELETE FROM user_threads.  The Python function takes zero
parameters; the table state is ambient. -/
def reset_ai_cache (db : AIDb) : AIDb := ⟨[], []⟩

/-- The positional parameter count of the Python function reset_ai_cache. -/
def reset_ai_cache_arity : Nat := 0

/-- Result of a Python call: normal return, or a raised TypeError. -/
inductive PyResult (α : Type)
  | ok (val : α)
  | typeError
deriving DecidableEq, Repr

/-- Python call semantics for reset_ai_cache: calling it with a number of
positional arguments different from its parameter count raises TypeError
before the body runs. -/
def call_reset_ai_cache (argCount : Nat) (db : AIDb) : PyResult AIDb :=
  if argCount = reset_ai_cache_arity then .ok (reset_ai_cache db) else .typeError

/-- src/app.py ai_reset (lines 518-524): for an authorized user it runs
reset_ai_cache(user["id"]) — one positional argument — and then answers with
the success message; an uncaught exception in the call aborts the handler
instead (HTTP 500). -/
def ai_reset (user_id : Nat) (db : AIDb) : PyResult (AIDb × String) :=
  match call_reset_ai_cache 1 db with
  | .ok db1 => .ok (db1, "AI cache cleared. Next request will create fresh assistants.")
  | .typeError => .typeError

/-- The fixed user-safe fallback strings a chat_with_ai call can return on a
remote failure. -/
def chatFallbacks : List String :=
  ["Sorry, the AI service is currently unavailable.",
   "Sorry, the AI is temporarily unavailable. Please try again.",
   "Sorry, the AI returned an error. Please try again."]

/-- A concrete survey: only the name key is present. -/
def surveyAna : Survey :=
  ⟨some "Ana", none, none, none, [], none, [], none, none, none, [], none,
   none, none, none, [], none⟩

/-- A concrete remote environment: creation succeeds, the priming post for
surveyAna and the guardian topic fails with a raised exception, any other
post succeeds with the reply text Fine. -/
def envPrimingFails : Remote :=
  ⟨fun _ => some "a1", fun _ => some "t1",
   fun _ content =>
     if content = primingText (build_context_message "guardian" (some surveyAna)) then .exn
     else .ok (some "Fine.")⟩

/-- A concrete remote environment in which every remote call fails. -/
def envAllFail : Remote := ⟨fun _ => none, fun _ => none, fun _ _ => .exn⟩


/-!
Part 3 embeds censor_pii of src/app.py (lines 41-49): two re.sub passes.

The first pattern is a word boundary, an uppercase letter followed by two or
more lowercase letters, then two or more repetitions of (whitespace run,
such a capitalized word), then a word boundary; every match is replaced by
the bracketed REDACTED token.  Because the lowercase runs, whitespace runs
and the repetition are greedy and no character class of the pattern can
absorb a character of the following literal, backtracking reduces to: take
the maximal sequence of qualifying words; if the character right after the
last word is a word character, the trailing boundary fails only for the
last repetition, so the match drops the final (whitespace, word) group and
ends after the previous word; at least three words must remain.  re.sub
scans left to right, attempts each position (the leading boundary holds when
the previous character is not a word character) and resumes after each
match.

The second pattern is an email: one or more of word/dot/plus/minus, a
literal at sign, one or more of word/minus, a literal dot, one or more of
word/dot/minus.  Again no class contains the following literal, so the
greedy spans never backtrack and a match at a position exists exactly when
the maximal spans are nonempty and hit the two literals.
-/

/-- The re word class (ASCII scope): letters, digits, underscore. -/
def isWordChar (c : Char) : Bool := c.isAlphanum || c = '_'

/-- Maximal prefix satisfying p, and the remainder. -/
def spanP (p : Char → Bool) : List Char → List Char × List Char
  | c :: rest =>
      if p c then
        let (a, b) := spanP p rest
        (c :: a, b)
      else ([], c :: rest)
  | [] => ([], [])

/-- One capitalized word of the name pattern: an uppercase letter and a
maximal lowercase run of length at least two.  Returns the word and the
remainder. -/
def parseWord : List Char → Option (List Char × List Char)
  | c :: rest =>
      if c.isUpper then
        let (ls, r) := spanP Char.isLower rest
        if 2 ≤ ls.length then some (c :: ls, r) else none
      else none
  | [] => none

/-- Greedily collect (whitespace run, capitalized word) repetitions. -/
def collectWords : Nat → List Char → List (List Char × List Char) × List Char
  | 0, cs => ([], cs)
  | fuel + 1, cs =>
      let (sp, r1) := spanP isPySpace cs
      if sp = [] then ([], cs)
      else
        match parseWord r1 with
        | some (w, r2) =>
            let (ps, r3) := collectWords fuel r2
            ((sp, w) :: ps, r3)
        | none => ([], cs)

/-- Name-pattern match attempt at the current position (the caller has
checked the leading word boundary).  Returns the remainder after the match
when one exists: a first word, at least two further (whitespace, word)
groups, and the trailing boundary — when the next character is a word
character the final group is dropped and at least two groups must remain. -/
def matchNames (cs : List Char) : Option (List Char) :=
  match parseWord cs with
  | none => none
  | some (_, r1) =>
    let (ps, r2) := collectWords r1.length r1
    if 2 ≤ ps.length then
      match r2 with
      | [] => some r2
      | c :: _ =>
        if isWordChar c then
          if 3 ≤ ps.length then
            match ps.getLast? with
            | some (sp, w) => some (sp ++ w ++ r2)
            | none => none
          else none
        else some r2
    else none

/-- The first re.sub pass of censor_pii: scan left to right; at a position
whose previous character is not a word character (tracked by the flag) and
which holds an uppercase letter, attempt the name pattern; on a match emit
the bracketed REDACTED token and resume after the match (the last matched
character is a lowercase letter, hence a word character). -/
def censorNames : Nat → Bool → List Char → List Char
  | 0, _, cs => cs
  | _ + 1, _, [] => []
  | fuel + 1, prevW, c :: rest =>
      if !prevW && c.isUpper then
        match matchNames (c :: rest) with
        | some r2 => "[REDACTED]".data ++ censorNames fuel true r2
        | none => c :: censorNames fuel (isWordChar c) rest
      else c :: censorNames fuel (isWordChar c) rest

/-- The local-part class of the email pattern: word, dot, plus, minus. -/
def isLocalChar (c : Char) : Bool := isWordChar c || c = '.' || c = '+' || c = '-'

/-- The first domain label class: word, minus. -/
def isDomChar (c : Char) : Bool := isWordChar c || c = '-'

/-- The tail domain class: word, dot, minus. -/
def isTldChar (c : Char) : Bool := isWordChar c || c = '.' || c = '-'

/-- Email-pattern match attempt at the current position: maximal nonempty
local span, the at sign, maximal nonempty label span, the dot, maximal
nonempty tail span.  Returns the remainder after the match. -/
def matchEmail (cs : List Char) : Option (List Char) :=
  let (loc, r1) := spanP isLocalChar cs
  if loc = [] then none
  else
    match r1 with
    | '@' :: r2 =>
      let (dom, r3) := spanP isDomChar r2
      if dom = [] then none
      else
        match r3 with
        | '.' :: r4 =>
          let (tld, r5) := spanP isTldChar r4
          if tld = [] then none else some r5
        | _ => none
    | _ => none

/-- The second re.sub pass of censor_pii: replace every email match with the
bracketed EMAIL token. -/
def censorEmails : Nat → List Char → List Char
  | 0, cs => cs
  | _ + 1, [] => []
  | fuel + 1, c :: rest =>
      match matchEmail (c :: rest) with
      | some r => "[EMAIL]".data ++ censorEmails fuel r
      | none => c :: censorEmails fuel rest

/-- src/app.py censor_pii (lines 41-49): the name pass over the input, then
the email pass over its output.  (On falsy input the Python function
returns it unchanged; both passes leave the empty string unchanged.) -/
def censor_pii (s : String) : String :=
  let l0 := s.data
  let l1 := censorNames l0.length false l0
  let l2 := censorEmails l1.length l1
  String.mk l2

/-- The shape of one word of the name pattern: an uppercase letter followed
by at least two lowercase letters. -/
def capsShape : List Char → Bool
  | c :: t => c.isUpper && t.all Char.isLower && decide (2 ≤ t.length)
  | [] => false

/-!
General shapes for the censor_pii theorems: text decomposed into maximal
capitalized-word sequences (or email occurrences) separated by plain
segments.  The side conditions on the plain segments state exactly the
maximality of the decomposition: a word boundary on each side of a
sequence, no uppercase letter inside a plain segment (so no match can
start there), and at least one non-whitespace character between two
sequences (so the greedy whitespace of the pattern cannot jump across and
merge them).
-/

/-- One capitalized-word sequence: the first word and the following
(whitespace run, word) groups. -/
structure NameSeq where
  w0 : List Char
  rest : List (List Char × List Char)
deriving DecidableEq, Repr

/-- The characters of a sequence. -/
def NameSeq.chars (s : NameSeq) : List Char :=
  s.w0 ++ (s.rest.map fun p => p.1 ++ p.2).flatten

/-- Well-formedness: every word is an uppercase letter with at least two
lowercase letters, every separator a nonempty whitespace run. -/
def NameSeq.ok (s : NameSeq) : Bool :=
  capsShape s.w0 && s.rest.all fun p =>
    !p.1.isEmpty && p.1.all isPySpace && capsShape p.2

/-- What the name pass leaves of one sequence: the REDACTED token when it
has three or more words, the sequence itself otherwise. -/
def NameSeq.out (s : NameSeq) : List Char :=
  if 2 ≤ s.rest.length then "[REDACTED]".data else s.chars

/-- A plain segment: no uppercase letter (no name match can start inside)
and no at sign (the email pass leaves it alone). -/
def plainOk (p : List Char) : Bool :=
  p.all fun x => !x.isUpper && x ≠ '@'

/-- Leading plain segment: possibly empty; a nonempty one ends in a
non-word character, giving the word boundary before the first word. -/
def leadPlain (p : List Char) : Bool :=
  plainOk p && p.getLast?.all fun c => !isWordChar c

/-- Interior plain segment between two sequences: nonempty, bounded by
non-word characters (the word boundaries of its neighbours), with at least
one non-whitespace character. -/
def midPlain (p : List Char) : Bool :=
  plainOk p && !p.isEmpty
    && (p.head?.all fun c => !isWordChar c)
    && (p.getLast?.all fun c => !isWordChar c)
    && !(spanP isPySpace p).2.isEmpty

/-- Trailing plain segment: empty or starting with a non-word character. -/
def tailPlain (p : List Char) : Bool :=
  plainOk p && p.head?.all fun c => !isWordChar c

/-- Text as a leading plain segment followed by sequences, each followed by
its plain segment. -/
def namesBody (blocks : List (NameSeq × List Char)) : List Char :=
  (blocks.map fun b => b.1.chars ++ b.2).flatten

def namesBodyOut (blocks : List (NameSeq × List Char)) : List Char :=
  (blocks.map fun b => b.1.out ++ b.2).flatten

def namesText (p0 : List Char) (blocks : List (NameSeq × List Char)) : List Char :=
  p0 ++ namesBody blocks

def namesTextOut (p0 : List Char) (blocks : List (NameSeq × List Char)) : List Char :=
  p0 ++ namesBodyOut blocks

/-- Conditions along the block list: every sequence well-formed, interior
plain segments interior-shaped, the final one trailing-shaped. -/
def blocksOk : List (NameSeq × List Char) → Bool
  | [] => true
  | [b] => b.1.ok && tailPlain b.2
  | b :: rest => b.1.ok && midPlain b.2 && blocksOk rest

/-- One email occurrence of the email pattern. -/
structure EmailPat where
  loc : List Char
  dom : List Char
  tld : List Char
deriving DecidableEq, Repr

/-- The characters of an email occurrence. -/
def EmailPat.chars (e : EmailPat) : List Char :=
  e.loc ++ '@' :: (e.dom ++ '.' :: e.tld)

/-- Well-formed email parts; the uppercase exclusion keeps the name pass
away from the text (a name match needs an uppercase letter). -/
def EmailPat.ok (e : EmailPat) : Bool :=
  !e.loc.isEmpty && e.loc.all (fun c => isLocalChar c && !c.isUpper)
  && !e.dom.isEmpty && e.dom.all (fun c => isDomChar c && !c.isUpper)
  && !e.tld.isEmpty && e.tld.all (fun c => isTldChar c && !c.isUpper)

/-- Leading plain segment of an email decomposition: no at sign, no
uppercase; a nonempty one ends outside the local-part class, so the local
span of the following email cannot extend to the left. -/
def leadQ (q : List Char) : Bool :=
  plainOk q && q.getLast?.all fun c => !isLocalChar c

/-- Interior plain segment between two emails: nonempty, starting outside
the tail class (the preceding tld span cannot extend right) and ending
outside the local class. -/
def midQ (q : List Char) : Bool :=
  plainOk q && !q.isEmpty
    && (q.head?.all fun c => !isTldChar c)
    && (q.getLast?.all fun c => !isLocalChar c)

/-- Trailing plain segment: empty or starting outside the tail class. -/
def tailQ (q : List Char) : Bool :=
  plainOk q && q.head?.all fun c => !isTldChar c

def emailsBody (blocks : List (EmailPat × List Char)) : List Char :=
  (blocks.map fun b => b.1.chars ++ b.2).flatten

def emailsBodyOut (blocks : List (EmailPat × List Char)) : List Char :=
  (blocks.map fun b => "[EMAIL]".data ++ b.2).flatten

def emailsText (q0 : List Char) (blocks : List (EmailPat × List Char)) : List Char :=
  q0 ++ emailsBody blocks

def emailsTextOut (q0 : List Char) (blocks : List (EmailPat × List Char)) : List Char :=
  q0 ++ emailsBodyOut blocks

def eblocksOk : List (EmailPat × List Char) → Bool
  | [] => true
  | [b] => b.1.ok && tailQ b.2
  | b :: rest => b.1.ok && midQ b.2 && eblocksOk rest

/-- The previous-character-is-a-word-character flag after scanning p, when
it was b before: the word-character test of the last character of p, or b
when p is empty. -/
def pFlag : List Char → Bool → Bool
  | [], b => b
  | c :: rest, _ => pFlag rest (isWordChar c)

theorem statusSum_append (s : TxStatus) (l : List Transaction) (t : Transaction) :
    statusSum s (l ++ [t]) = statusSum s l + (if t.status = s then t.amount.toRat else 0) := by
  simp [statusSum]

theorem opStep (st : LedgerState) (op : Op) (h : 0 < op.amount) :
    net (applyOp st op) = net st ∧
    (applyOp st op).log.length = st.log.length + 1 ∧
    ∃ t : Transaction, (applyOp st op).log = st.log ++ [t]
      ∧ some t.status = ((opResult st op).1).toStatus := by
  cases op with
  | purchase q item =>
    have hq : 0 < q := h
    have hq' : ¬ (q ≤ 0) := not_le.mpr hq
    by_cases hs : 7 < st.stress_level ∧ 50 < q
    · refine ⟨?_, ?_, ⟨item, .fin q, .BLOCKED⟩, ?_, ?_⟩ <;>
        simp [applyOp, opResult, transaction_attempt, Amount.leZero, Amount.gtFifty, hq', hs,
          net, statusSum_append, Outcome.toStatus]
    · by_cases hb : balGe st.balance (.fin q)
      · refine ⟨?_, ?_, ⟨item, .fin q, .ALLOWED⟩, ?_, ?_⟩ <;>
          simp [applyOp, opResult, transaction_attempt, Amount.leZero, Amount.gtFifty, hq', hs, hb,
            net, statusSum_append, Outcome.toStatus, Amount.toRat] <;> ring
      · refine ⟨?_, ?_, ⟨item, .fin q, .BLOCKED⟩, ?_, ?_⟩ <;>
          simp [applyOp, opResult, transaction_attempt, Amount.leZero, Amount.gtFifty, hq', hs, hb,
            net, statusSum_append, Outcome.toStatus]
  | income q source =>
    have hq' : ¬ (q ≤ 0) := not_le.mpr h
    refine ⟨?_, ?_, ⟨"Income: " ++ source, .fin q, .INCOME⟩, ?_, ?_⟩ <;>
      simp [applyOp, opResult, add_income, hq', net, statusSum_append, Outcome.toStatus,
        Amount.toRat] <;> ring

theorem net_runOps (ops : List Op) (init : LedgerState)
    (h : ∀ op ∈ ops, 0 < op.amount) :
    net (runOps init ops) = net init ∧
    (runOps init ops).log.length = init.log.length + ops.length := by
  induction ops generalizing init with
  | nil => simp [runOps]
  | cons op ops ih =>
    have h0 : 0 < op.amount := h op (by simp)
    have hrest : ∀ o ∈ ops, 0 < o.amount := fun o ho => h o (by simp [ho])
    have hstep := opStep init op h0
    have hrec := ih (applyOp init op) hrest
    have hfold : runOps init (op :: ops) = runOps (applyOp init op) ops := by
      simp [runOps, List.foldl_cons]
    constructor
    · rw [hfold, hrec.1, hstep.1]
    · rw [hfold, hrec.2, hstep.2.1, List.length_cons]; omega

/-- C1: For a purchase evaluation with a valid positive finite amount, the
rules apply in fixed order with first match winning: stress_level > 7 and
amount > 50 gives BLOCKED "High stress impulse buy detected." regardless of
balance; otherwise balance < amount gives BLOCKED "Insufficient funds.";
otherwise the result is ALLOWED and the new balance is balance - amount. -/
theorem transaction_attempt_rule_order
    (balance : Rat) (stress : Int) (log : List Transaction) (q : Rat) (item : String)
    (hq : 0 < q) :
    ((7 < stress ∧ 50 < q →
        transaction_attempt (.num (.fin q)) item ⟨balance, stress, log⟩
          = (.blocked "High stress impulse buy detected.",
             ⟨balance, stress, log ++ [⟨item, .fin q, .BLOCKED⟩]⟩))
     ∧ (¬ (7 < stress ∧ 50 < q) → balance < q →
        transaction_attempt (.num (.fin q)) item ⟨balance, stress, log⟩
          = (.blocked "Insufficient funds.",
             ⟨balance, stress, log ++ [⟨item, .fin q, .BLOCKED⟩]⟩))
     ∧ (¬ (7 < stress ∧ 50 < q) → q ≤ balance →
        transaction_attempt (.num (.fin q)) item ⟨balance, stress, log⟩
          = (.allowed (balance - q),
             ⟨balance - q, stress, log ++ [⟨item, .fin q, .ALLOWED⟩]⟩))) := by
  have hq' : ¬ (q ≤ 0) := not_le.mpr hq
  refine ⟨fun hs => ?_, fun hs hb => ?_, fun hs hb => ?_⟩ <;>
    simp [transaction_attempt, Amount.leZero, Amount.gtFifty, balGe, Amount.toRat, hq', hs,
      not_le.mpr, *]

/-- C1 witness: stress_level = 8, amount = 51, balance = 1000 is BLOCKED by
the stress rule even though the balance would cover the purchase. -/
theorem transaction_attempt_rule_order_witness :
    transaction_attempt (.num (.fin 51)) "watch" ⟨1000, 8, []⟩
      = (.blocked "High stress impulse buy detected.",
         ⟨1000, 8, [⟨"watch", .fin 51, .BLOCKED⟩]⟩) :=
  (transaction_attempt_rule_order 1000 8 [] 51 "watch" (by norm_num)).1
    (by constructor <;> norm_num)

/-- C2: Starting from an empty log, after any sequence of purchase
evaluations and income additions with positive amounts, the balance equals
the initial balance minus the sum of amounts on ALLOWED rows plus the sum of
amounts on INCOME rows; each event appends exactly one row, and the status
of the appended row matches the decision. -/
theorem ledger_balance_invariant (init : LedgerState) (ops : List Op)
    (hlog : init.log = [])
    (hpos : ∀ op ∈ ops, 0 < op.amount) :
    (runOps init ops).balance
      = init.balance - statusSum .ALLOWED (runOps init ops).log
          + statusSum .INCOME (runOps init ops).log
    ∧ (runOps init ops).log.length = ops.length
    ∧ (∀ st : LedgerState, ∀ op ∈ ops,
        ∃ t : Transaction, (applyOp st op).log = st.log ++ [t]
          ∧ some t.status = ((opResult st op).1).toStatus) := by
  have hmain := net_runOps ops init hpos
  have hnet0 : net init = init.balance := by simp [net, hlog, statusSum]
  refine ⟨?_, ?_, fun st op hop => (opStep st op (hpos op hop)).2.2⟩
  · have := hmain.1
    rw [hnet0] at this
    unfold net at this
    linarith
  · have := hmain.2
    rw [hlog] at this
    simpa using this

/-- C2 witness: from balance 100 and an empty log, an allowed purchase of 30,
a blocked attempt of 500 and an income of 20 leave balance 100 - 30 + 20 and
three rows, each event having appended exactly one matching row. -/
theorem ledger_balance_invariant_witness :
    (runOps ⟨100, 2, []⟩ [.purchase 30 "book", .purchase 500 "tv", .income 20 "salary"]).balance
      = 100 - statusSum .ALLOWED (runOps ⟨100, 2, []⟩
            [.purchase 30 "book", .purchase 500 "tv", .income 20 "salary"]).log
          + statusSum .INCOME (runOps ⟨100, 2, []⟩
            [.purchase 30 "book", .purchase 500 "tv", .income 20 "salary"]).log
    ∧ (runOps ⟨100, 2, []⟩
        [.purchase 30 "book", .purchase 500 "tv", .income 20 "salary"]).log.length = 3 :=
  ⟨(ledger_balance_invariant ⟨100, 2, []⟩
      [.purchase 30 "book", .purchase 500 "tv", .income 20 "salary"] rfl
      (by intro op hop; fin_cases hop <;> norm_num [Op.amount])).1,
   (ledger_balance_invariant ⟨100, 2, []⟩
      [.purchase 30 "book", .purchase 500 "tv", .income 20 "salary"] rfl
      (by intro op hop; fin_cases hop <;> norm_num [Op.amount])).2.1⟩

theorem transaction_attempt_balance (a : Amount) (item : String) (st : LedgerState) :
    (transaction_attempt (.num a) item st).2.balance = st.balance
    ∨ (balGe st.balance a
       ∧ (transaction_attempt (.num a) item st).2.balance = st.balance - a.toRat) := by
  by_cases h1 : a.leZero
  · left; simp [transaction_attempt, h1]
  · by_cases h2 : 7 < st.stress_level ∧ a.gtFifty
    · left; simp [transaction_attempt, h1, h2]
    · by_cases h3 : balGe st.balance a
      · right; exact ⟨h3, by simp [transaction_attempt, h1, h2, h3]⟩
      · left; simp [transaction_attempt, h1, h2, h3]

theorem purchase_execute_balance (a : Amount) (item : String) (st : LedgerState) :
    (purchase_execute a item st).2.balance = st.balance
    ∨ (balGe st.balance a
       ∧ (purchase_execute a item st).2.balance = st.balance - a.toRat) := by
  by_cases h1 : a.leZero
  · left; simp [purchase_execute, h1]
  · by_cases h3 : balGe st.balance a
    · right; exact ⟨h3, by simp [purchase_execute, h1, h3]⟩
    · left; simp [purchase_execute, h1, h3]

theorem balGe_toRat_le (b : Rat) (a : Amount) (hb : 0 ≤ b) (h : balGe b a) :
    a.toRat ≤ b := by
  cases a with
  | fin q => simpa [balGe, Amount.toRat] using h
  | inf => simp [balGe] at h
  | ninf => simpa [Amount.toRat] using hb
  | nan => simp [balGe] at h

/-- C6: A nonnegative balance stays nonnegative under every purchase
evaluation, every purchase execution and every income addition, for every
amount value: the debit happens only through the conditional update, that
is, the balance either is unchanged or was at least the amount and got
exactly that amount subtracted. -/
theorem conditional_debit_nonneg (st : LedgerState) (h : 0 ≤ st.balance) :
    (∀ a item, 0 ≤ (transaction_attempt a item st).2.balance)
    ∧ (∀ a item, 0 ≤ (purchase_execute a item st).2.balance)
    ∧ (∀ q source, 0 ≤ (add_income q source st).2.balance)
    ∧ (∀ a item, (transaction_attempt (.num a) item st).2.balance = st.balance
        ∨ (a.toRat ≤ st.balance
           ∧ (transaction_attempt (.num a) item st).2.balance = st.balance - a.toRat))
    ∧ (∀ a item, (purchase_execute a item st).2.balance = st.balance
        ∨ (a.toRat ≤ st.balance
           ∧ (purchase_execute a item st).2.balance = st.balance - a.toRat)) := by
  have hta : ∀ a item, (transaction_attempt (.num a) item st).2.balance = st.balance
      ∨ (a.toRat ≤ st.balance
         ∧ (transaction_attempt (.num a) item st).2.balance = st.balance - a.toRat) := by
    intro a item
    rcases transaction_attempt_balance a item st with h1 | ⟨h1, h2⟩
    · exact Or.inl h1
    · exact Or.inr ⟨balGe_toRat_le st.balance a h h1, h2⟩
  have hpe : ∀ a item, (purchase_execute a item st).2.balance = st.balance
      ∨ (a.toRat ≤ st.balance
         ∧ (purchase_execute a item st).2.balance = st.balance - a.toRat) := by
    intro a item
    rcases purchase_execute_balance a item st with h1 | ⟨h1, h2⟩
    · exact Or.inl h1
    · exact Or.inr ⟨balGe_toRat_le st.balance a h h1, h2⟩
  refine ⟨?_, ?_, ?_, hta, hpe⟩
  · rintro (a | _) item
    · rcases hta a item with h1 | ⟨h1, h2⟩
      · rw [h1]; exact h
      · rw [h2]; linarith
    · simpa [transaction_attempt] using h
  · intro a item
    rcases hpe a item with h1 | ⟨h1, h2⟩
    · rw [h1]; exact h
    · rw [h2]; linarith
  · intro q source
    by_cases hq : q ≤ 0
    · simpa [add_income, hq] using h
    · have : (add_income q source st).2.balance = st.balance + q := by simp [add_income, hq]
      rw [this]; push_neg at hq; linarith

/-- C6 witness: from a nonnegative balance of 100 a purchase attempt of 60
leaves a nonnegative balance. -/
theorem conditional_debit_nonneg_witness :
    0 ≤ (transaction_attempt (.num (.fin 60)) "tv" ⟨100, 2, []⟩).2.balance :=
  (conditional_debit_nonneg ⟨100, 2, []⟩ (by norm_num)).1 (.num (.fin 60)) "tv"

/-- Whether the validation check of transaction_attempt rejects an amount
value: either it is not a number, or the Python comparison amount <= 0 is
True.  (nan and +inf satisfy neither condition.) -/
def amountInvalid : AmountVal → Bool
  | .nonNum => true
  | .num a => a.leZero

/-- C9 (amended): A purchase evaluation whose amount is not a number or has
amount <= 0 true, and an income addition with a nonpositive finite amount,
return a 400 validation error (not a BLOCKED decision) and leave the state
(balance and transaction log) unchanged.  Non-finite floats (+inf, nan) are
not rejected by the validation check. -/
theorem invalid_amount_validation (st : LedgerState) (a : AmountVal)
    (item source : String) (q : Rat) (ha : amountInvalid a) (hq : q ≤ 0) :
    transaction_attempt a item st = (.error "Amount must be a positive number", st)
    ∧ add_income q source st = (.error "Amount must be positive", st) := by
  constructor
  · cases a with
    | nonNum => rfl
    | num a0 =>
      have ha0 : a0.leZero := by simpa [amountInvalid] using ha
      simp [transaction_attempt, ha0]
  · simp [add_income, hq]

/-- C9 witness: a non-numeric amount and the income amount -5 are both
rejected with no state change. -/
theorem invalid_amount_validation_witness :
    transaction_attempt .nonNum "gem" ⟨50, 3, []⟩
      = (.error "Amount must be a positive number", ⟨50, 3, []⟩)
    ∧ add_income (-5) "gift" ⟨50, 3, []⟩
      = (.error "Amount must be positive", ⟨50, 3, []⟩) :=
  invalid_amount_validation ⟨50, 3, []⟩ .nonNum "gem" "gift" (-5) (by decide) (by norm_num)

/-- C9 counterexample: the amount +inf is a number that is not a positive
finite number, yet the operation does not return a validation error: the
Python check inf <= 0 is False, so the handler reaches the affordability
rule, answers with a BLOCKED decision and appends a row to the transaction
log (a state change). -/
theorem nonfinite_amount_reaches_rules :
    (transaction_attempt (.num .inf) "yacht" ⟨100, 2, []⟩).1
      = .blocked "Insufficient funds."
    ∧ (transaction_attempt (.num .inf) "yacht" ⟨100, 2, []⟩).2.log
      = [⟨"yacht", .inf, .BLOCKED⟩] := by
  constructor <;> rfl

/-- C10: The execute-after-AI-evaluation path applies only the affordability
check: with 0 < amount <= balance it debits the balance and answers ALLOWED
even when stress_level > 7 and amount > 50, while transaction_attempt on the
same input is BLOCKED by the stress rule. -/
theorem purchase_execute_skips_stress_rule (st : LedgerState) (q : Rat) (item : String)
    (h1 : 0 < q) (h2 : q ≤ st.balance) (h3 : 7 < st.stress_level) (h4 : 50 < q) :
    purchase_execute (.fin q) item st
      = (.allowed (st.balance - q),
         { st with balance := st.balance - q,
                   log := st.log ++ [⟨item, .fin q, .ALLOWED⟩] })
    ∧ (transaction_attempt (.num (.fin q)) item st).1
        = .blocked "High stress impulse buy detected." := by
  have hq' : ¬ (q ≤ 0) := not_le.mpr h1
  constructor
  · simp [purchase_execute, Amount.leZero, balGe, Amount.toRat, hq', h2]
  · simp [transaction_attempt, Amount.leZero, Amount.gtFifty, hq', h3, h4]

/-- C10 witness: stress 8, amount 51, balance 1000: purchase_execute allows
and debits to 949, while transaction_attempt blocks. -/
theorem purchase_execute_skips_stress_rule_witness :
    purchase_execute (.fin 51) "drone" ⟨1000, 8, []⟩
      = (.allowed (1000 - 51),
         ⟨1000 - 51, 8, [⟨"drone", .fin 51, .ALLOWED⟩]⟩)
    ∧ (transaction_attempt (.num (.fin 51)) "drone" ⟨1000, 8, []⟩).1
        = .blocked "High stress impulse buy detected." :=
  purchase_execute_skips_stress_rule ⟨1000, 8, []⟩ 51 "drone"
    (by norm_num) (by norm_num) (by norm_num) (by norm_num)

theorem alookup_aupdate_self {κ ω : Type} [DecidableEq κ] (l : List (κ × ω)) (k : κ) (v : ω) :
    alookup (aupdate l k v) k = some v := by
  induction l with
  | nil => simp [aupdate, alookup]
  | cons p rest ih =>
    obtain ⟨k0, w⟩ := p
    by_cases h : k0 = k <;> simp [aupdate, alookup, h, ih]

theorem setInitRows_lookup (l : List ((Nat × String) × (String × Bool))) (key : Nat × String) :
    alookup (setInitRows l key) key = (alookup l key).map (fun p => (p.1, true)) := by
  induction l with
  | nil => simp [setInitRows, alookup]
  | cons p rest ih =>
    obtain ⟨k0, tid, b⟩ := p
    by_cases h : k0 = key <;> simp [setInitRows, alookup, h, ih]

theorem joinBar_length (p : String) (l : List String) :
    p.length ≤ (joinBar (p :: l)).length := by
  cases l with
  | nil => simp [joinBar]
  | cons q rest =>
    simp only [joinBar, String.length_append]
    omega

theorem joinBar_user_ne (n : String) (l : List String) :
    joinBar (("User: " ++ n) :: l) ≠ "" := by
  intro h
  have h1 := joinBar_length ("User: " ++ n) l
  rw [h] at h1
  have h2 : ("User: " ++ n).length = 6 + n.length := by
    simp [String.length_append]
    rfl
  have h3 : ("" : String).length = 0 := rfl
  omega

theorem build_context_message_ne (sec : String) (s : Survey) :
    build_context_message sec (some s) ≠ "" := by
  simp only [build_context_message]
  split_ifs <;>
    simp only [List.singleton_append, List.cons_append, List.append_assoc] <;>
    exact joinBar_user_ne _ _

theorem send_message_fallback (env : Remote) (tid msg : String)
    (h : env.post tid msg = .exn ∨ env.post tid msg = .httpError) :
    send_message env tid msg ∈ chatFallbacks := by
  rcases h with h | h <;> simp [send_message, h, chatFallbacks]

/-- C3 (amended): On a fresh (user, topic) pair with a supplied profile, if
thread creation succeeds then the first chat call posts exactly one priming
message (the formatted user context) before the user message, and the
initialized flag transitions from false to true on that call — on the
priming attempt, whether or not the remote post succeeds; the second chat
call for the same pair posts zero priming messages and leaves the tables
unchanged. -/
theorem thread_priming_once
    (env : Remote) (db : AIDb) (user : Nat) (sec : String) (s : Survey)
    (msg1 msg2 tid : String)
    (hfresh : lookupThread db user sec = none)
    (hcreated : (get_or_create_thread env db user sec).1 = (some tid, false)) :
    (chat_with_ai env db user sec msg1 (some s)).posts
      = [(tid, primingText (build_context_message sec (some s))), (tid, msg1)]
    ∧ lookupThread (chat_with_ai env db user sec msg1 (some s)).db user sec
      = some (tid, true)
    ∧ (chat_with_ai env (chat_with_ai env db user sec msg1 (some s)).db
        user sec msg2 (some s)).posts = [(tid, msg2)]
    ∧ (chat_with_ai env (chat_with_ai env db user sec msg1 (some s)).db
        user sec msg2 (some s)).db
      = (chat_with_ai env db user sec msg1 (some s)).db := by
  rcases hga : get_or_create_assistant env db sec with ⟨oaid, db1⟩
  cases oaid with
  | none =>
    simp [get_or_create_thread, hfresh, hga] at hcreated
  | some aid =>
    rcases hct : env.createThread aid with _ | tid0
    · simp [get_or_create_thread, hfresh, hga, hct] at hcreated
    · have hthr : get_or_create_thread env db user sec
          = ((some tid0, false), insertThread db1 user sec tid0 false) := by
        simp only [get_or_create_thread, hfresh, hga, hct]
      have htid : tid0 = tid := by
        rw [hthr] at hcreated
        simp at hcreated
        exact hcreated
      subst htid
      have hcne := build_context_message_ne sec s
      have hchat : chat_with_ai env db user sec msg1 (some s)
          = ⟨send_message env tid0 msg1,
             setInitialized (insertThread db1 user sec tid0 false) user sec,
             [(tid0, primingText (build_context_message sec (some s))), (tid0, msg1)]⟩ := by
        simp only [chat_with_ai, hthr]
        simp [hcne]
      have hlook2 : lookupThread
          (setInitialized (insertThread db1 user sec tid0 false) user sec) user sec
          = some (tid0, true) := by
        simp [lookupThread, setInitialized, insertThread, setInitRows_lookup,
          alookup_aupdate_self]
      have hthr2 : get_or_create_thread env
          (setInitialized (insertThread db1 user sec tid0 false) user sec) user sec
          = ((some tid0, true),
             setInitialized (insertThread db1 user sec tid0 false) user sec) := by
        simp only [get_or_create_thread, hlook2]
      have hchat2 : chat_with_ai env
          (setInitialized (insertThread db1 user sec tid0 false) user sec)
          user sec msg2 (some s)
          = ⟨send_message env tid0 msg2,
             setInitialized (insertThread db1 user sec tid0 false) user sec,
             [(tid0, msg2)]⟩ := by
        simp only [chat_with_ai, hthr2]
      refine ⟨by rw [hchat], by rw [hchat]; exact hlook2, ?_, ?_⟩
      · rw [hchat, hchat2]
      · rw [hchat, hchat2]

/-- C3 witness: a fresh pair, the guardian topic and a one-field survey:
the first call posts the priming message then the user message, the flag
becomes true, the second call posts only the user message. -/
theorem thread_priming_once_witness :
    (chat_with_ai envPrimingFails ⟨[], []⟩ 1 "guardian" "hi" (some surveyAna)).posts
      = [("t1", primingText (build_context_message "guardian" (some surveyAna))),
         ("t1", "hi")]
    ∧ lookupThread (chat_with_ai envPrimingFails ⟨[], []⟩ 1 "guardian" "hi"
        (some surveyAna)).db 1 "guardian" = some ("t1", true)
    ∧ (chat_with_ai envPrimingFails
        (chat_with_ai envPrimingFails ⟨[], []⟩ 1 "guardian" "hi" (some surveyAna)).db
        1 "guardian" "again" (some surveyAna)).posts = [("t1", "again")]
    ∧ (chat_with_ai envPrimingFails
        (chat_with_ai envPrimingFails ⟨[], []⟩ 1 "guardian" "hi" (some surveyAna)).db
        1 "guardian" "again" (some surveyAna)).db
      = (chat_with_ai envPrimingFails ⟨[], []⟩ 1 "guardian" "hi" (some surveyAna)).db :=
  thread_priming_once envPrimingFails ⟨[], []⟩ 1 "guardian" surveyAna "hi" "again" "t1"
    rfl rfl

/-- C3 counterexample: the priming post raises, yet the initialized flag
still transitions to true: the transition is not conditioned on the priming
message succeeding. -/
theorem priming_failure_still_marks_initd :
    (chat_with_ai envPrimingFails ⟨[], []⟩ 1 "guardian" "hi" (some surveyAna)).db.threads
      = [((1, "guardian"), ("t1", true))]
    ∧ envPrimingFails.post "t1"
        (primingText (build_context_message "guardian" (some surveyAna))) = .exn := by
  constructor
  · decide
  · decide

/-- C4 (code bug): the ai_reset route calls the zero-parameter function
reset_ai_cache with one positional argument; the call raises TypeError, so
no binding is deleted and the success message is never returned, while the
deletion body itself (called with zero arguments) would clear both tables. -/
theorem ai_reset_type_error (user_id : Nat) (db : AIDb) :
    ai_reset user_id db = .typeError
    ∧ call_reset_ai_cache 0 db = .ok ⟨[], []⟩ := by
  constructor <;> rfl

/-- C7: The markdown stripping of the reply post-processing turns the input
holding bold markup, a heading line and a bullet line into the bare words:
bold markers removed, hash prefix removed, dash prefix removed. -/
theorem strip_markdown_example :
    strip_markdown "**bold**\n# Heading\n- item" = "bold\nHeading\nitem" := by
  decide

/-- C8 (amended): When the thread cannot be resolved (assistant or thread
creation failed), chat_with_ai returns the fixed unavailability text; when
the post of the user message fails (raised exception or non-200 status),
the returned reply is one of the fixed fallback strings.  (A failure of the
one-time priming post is swallowed and does not affect the returned value.)
The embedded chat_with_ai is a total function: no exception reaches the
caller. -/
theorem chat_failure_fallback
    (env : Remote) (db : AIDb) (user : Nat) (sec msg : String) (survey : Option Survey) :
    (((get_or_create_thread env db user sec).1).1 = none →
      (chat_with_ai env db user sec msg survey).reply
        = "Sorry, the AI service is currently unavailable."
      ∧ (chat_with_ai env db user sec msg survey).reply ∈ chatFallbacks)
    ∧ (∀ tid initd, (get_or_create_thread env db user sec).1 = (some tid, initd) →
        (env.post tid msg = .exn ∨ env.post tid msg = .httpError) →
        (chat_with_ai env db user sec msg survey).reply ∈ chatFallbacks) := by
  rcases hg : get_or_create_thread env db user sec with ⟨⟨otid, b⟩, db1⟩
  constructor
  · intro hnone
    simp at hnone
    subst hnone
    simp [chat_with_ai, hg, chatFallbacks]
  · intro tid initd heq hpost
    simp at heq
    obtain ⟨h1, h2⟩ := heq
    subst h1
    subst h2
    have hsm := send_message_fallback env tid msg hpost
    cases b with
    | false =>
      cases survey with
      | none => simpa [chat_with_ai, hg] using hsm
      | some s =>
        by_cases hc : build_context_message sec (some s) = "" <;>
          simpa [chat_with_ai, hg, hc] using hsm
    | true => cases survey <;> simpa [chat_with_ai, hg] using hsm

/-- C8 witness: with every remote call failing, a chat call on an empty
cache returns the fixed unavailability fallback. -/
theorem chat_failure_fallback_witness :
    (chat_with_ai envAllFail ⟨[], []⟩ 1 "guardian" "hi" none).reply
      = "Sorry, the AI service is currently unavailable."
    ∧ (chat_with_ai envAllFail ⟨[], []⟩ 1 "guardian" "hi" none).reply ∈ chatFallbacks :=
  (chat_failure_fallback envAllFail ⟨[], []⟩ 1 "guardian" "hi" none).1 rfl

/-- C8 counterexample: the priming post fails with a raised exception, the
user-message post succeeds: chat_with_ai returns the remote reply, not a
fallback string, although a remote call failed during the invocation. -/
theorem priming_failure_not_fallback :
    (chat_with_ai envPrimingFails ⟨[], []⟩ 1 "guardian" "hi" (some surveyAna)).reply = "Fine."
    ∧ envPrimingFails.post "t1"
        (primingText (build_context_message "guardian" (some surveyAna))) = .exn
    ∧ "Fine." ∉ chatFallbacks := by
  refine ⟨by decide, by decide, by decide⟩

theorem lower_not_upper (c : Char) (h : c.isLower = true) : c.isUpper = false := by
  simp only [Char.isLower, ge_iff_le, Bool.and_eq_true, decide_eq_true_eq] at h
  have h1 : (97 : UInt32).toNat ≤ c.val.toNat := h.1
  have e97 : (97 : UInt32).toNat = 97 := rfl
  by_contra hu
  rw [Bool.not_eq_false] at hu
  simp only [Char.isUpper, ge_iff_le, Bool.and_eq_true, decide_eq_true_eq] at hu
  have h2 : c.val.toNat ≤ (90 : UInt32).toNat := hu.2
  have e90 : (90 : UInt32).toNat = 90 := rfl
  omega

theorem lower_isWord (c : Char) (h : c.isLower = true) : isWordChar c = true := by
  simp [isWordChar, Char.isAlphanum, Char.isAlpha, h]

theorem upper_isWord (c : Char) (h : c.isUpper = true) : isWordChar c = true := by
  simp [isWordChar, Char.isAlphanum, Char.isAlpha, h]

theorem space_of_isPySpace (c : Char) (h : isPySpace c = true) :
    c = ' ' ∨ c = '\t' ∨ c = '\n' ∨ c = '\r' ∨ c = '\x0b' ∨ c = '\x0c' := by
  simpa [isPySpace] using h

theorem upper_not_space (c : Char) (h : c.isUpper = true) : isPySpace c = false := by
  by_contra hs
  rw [Bool.not_eq_false] at hs
  rcases space_of_isPySpace c hs with rfl | rfl | rfl | rfl | rfl | rfl <;>
    exact absurd h (by decide)

theorem lower_not_space (c : Char) (h : c.isLower = true) : isPySpace c = false := by
  by_contra hs
  rw [Bool.not_eq_false] at hs
  rcases space_of_isPySpace c hs with rfl | rfl | rfl | rfl | rfl | rfl <;>
    exact absurd h (by decide)

theorem upper_ne_at (c : Char) (h : c.isUpper = true) : c ≠ '@' := by
  intro he
  subst he
  exact absurd h (by decide)

theorem lower_ne_at (c : Char) (h : c.isLower = true) : c ≠ '@' := by
  intro he
  subst he
  exact absurd h (by decide)

theorem spanP_eq_append (p : Char → Bool) (l : List Char) :
    (spanP p l).1 ++ (spanP p l).2 = l := by
  induction l with
  | nil => simp [spanP]
  | cons c rest ih =>
    by_cases h : p c <;> simp [spanP, h, ih]

theorem spanP_split (p : Char → Bool) (a b : List Char)
    (ha : ∀ c ∈ a, p c = true) (hb : ∀ c, b.head? = some c → p c = false) :
    spanP p (a ++ b) = (a, b) := by
  induction a with
  | nil =>
    cases b with
    | nil => simp [spanP]
    | cons c r => simp [spanP, hb c rfl]
  | cons c a ih =>
    have hc : p c = true := ha c (by simp)
    have ha' : ∀ x ∈ a, p x = true := fun x hx => ha x (by simp [hx])
    simp [spanP, hc, ih ha']

theorem parseWord_split (c : Char) (t b : List Char)
    (hc : c.isUpper = true) (ht : ∀ x ∈ t, x.isLower = true) (hlen : 2 ≤ t.length)
    (hb : ∀ x, b.head? = some x → x.isLower = false) :
    parseWord ((c :: t) ++ b) = some (c :: t, b) := by
  have hsp : spanP Char.isLower (t ++ b) = (t, b) := spanP_split _ _ _ ht hb
  simp [parseWord, hc, hsp, hlen]

theorem parseWord_eq_append (cs w r : List Char) (h : parseWord cs = some (w, r)) :
    cs = w ++ r := by
  cases cs with
  | nil => simp [parseWord] at h
  | cons c rest =>
    by_cases hc : c.isUpper
    · rcases hsp : spanP Char.isLower rest with ⟨ls, r0⟩
      by_cases hlen : 2 ≤ ls.length
      · simp [parseWord, hc, hsp, hlen] at h
        obtain ⟨hw, hr⟩ := h
        subst hw
        subst hr
        have := spanP_eq_append Char.isLower rest
        rw [hsp] at this
        simp at this ⊢
        exact this.symm
      · simp [parseWord, hc, hsp, hlen] at h
    · simp [parseWord, hc] at h

theorem collectWords_nil (fuel : Nat) : collectWords fuel [] = ([], []) := by
  cases fuel <;> simp [collectWords, spanP]

theorem collectWords_stop (fuel : Nat) (cs : List Char)
    (h : ∀ x, cs.head? = some x → isPySpace x = false) :
    collectWords fuel cs = ([], cs) := by
  cases fuel with
  | zero => simp [collectWords]
  | succ f =>
    cases cs with
    | nil => simp [collectWords, spanP]
    | cons c rest => simp [collectWords, spanP, h c rfl]

theorem collectWords_one (c : Char) (t : List Char) (fuel : Nat)
    (hc : c.isUpper = true) (ht : ∀ x ∈ t, x.isLower = true) (hlen : 2 ≤ t.length)
    (hf : 1 ≤ fuel) :
    collectWords fuel (' ' :: (c :: t)) = ([([' '], c :: t)], []) := by
  obtain ⟨f, rfl⟩ : ∃ f, fuel = f + 1 := ⟨fuel - 1, by omega⟩
  have hb1 : ∀ x, (c :: t).head? = some x → isPySpace x = false := by
    intro x hx
    simp at hx
    subst hx
    exact upper_not_space c hc
  have hsp : spanP isPySpace ([' '] ++ (c :: t)) = ([' '], c :: t) :=
    spanP_split _ _ _ (by simp [isPySpace]) hb1
  have hpw : parseWord ((c :: t) ++ []) = some (c :: t, []) :=
    parseWord_split c t [] hc ht hlen (by intro x hx; simp at hx)
  simp only [List.singleton_append] at hsp
  simp only [List.append_nil] at hpw
  simp [collectWords, hsp, hpw, collectWords_nil]

theorem collectWords_two (c2 c3 : Char) (t2 t3 : List Char) (fuel : Nat)
    (hc2 : c2.isUpper = true) (ht2 : ∀ x ∈ t2, x.isLower = true) (hl2 : 2 ≤ t2.length)
    (hc3 : c3.isUpper = true) (ht3 : ∀ x ∈ t3, x.isLower = true) (hl3 : 2 ≤ t3.length)
    (hf : 2 ≤ fuel) :
    collectWords fuel (' ' :: ((c2 :: t2) ++ (' ' :: (c3 :: t3))))
      = ([([' '], c2 :: t2), ([' '], c3 :: t3)], []) := by
  obtain ⟨f, rfl⟩ : ∃ f, fuel = f + 1 := ⟨fuel - 1, by omega⟩
  have hb1 : ∀ x, ((c2 :: t2) ++ (' ' :: (c3 :: t3))).head? = some x →
      isPySpace x = false := by
    intro x hx
    simp at hx
    subst hx
    exact upper_not_space c2 hc2
  have hsp : spanP isPySpace ([' '] ++ ((c2 :: t2) ++ (' ' :: (c3 :: t3))))
      = ([' '], (c2 :: t2) ++ (' ' :: (c3 :: t3))) :=
    spanP_split _ _ _ (by simp [isPySpace]) hb1
  have hpw : parseWord ((c2 :: t2) ++ (' ' :: (c3 :: t3)))
      = some (c2 :: t2, ' ' :: (c3 :: t3)) :=
    parseWord_split c2 t2 _ hc2 ht2 hl2 (by intro x hx; simp at hx; subst hx; decide)
  have hrec := collectWords_one c3 t3 f hc3 ht3 hl3 (by omega)
  simp only [List.singleton_append] at hsp
  simp only [List.cons_append] at hsp hpw
  simp [collectWords, hsp, hpw, hrec]

theorem matchNames_three (c1 c2 c3 : Char) (t1 t2 t3 : List Char)
    (hc1 : c1.isUpper = true) (ht1 : ∀ x ∈ t1, x.isLower = true) (hl1 : 2 ≤ t1.length)
    (hc2 : c2.isUpper = true) (ht2 : ∀ x ∈ t2, x.isLower = true) (hl2 : 2 ≤ t2.length)
    (hc3 : c3.isUpper = true) (ht3 : ∀ x ∈ t3, x.isLower = true) (hl3 : 2 ≤ t3.length) :
    matchNames ((c1 :: t1) ++ (' ' :: ((c2 :: t2) ++ (' ' :: (c3 :: t3))))) = some [] := by
  have hpw : parseWord ((c1 :: t1) ++ (' ' :: ((c2 :: t2) ++ (' ' :: (c3 :: t3)))))
      = some (c1 :: t1, ' ' :: ((c2 :: t2) ++ (' ' :: (c3 :: t3)))) :=
    parseWord_split c1 t1 _ hc1 ht1 hl1 (by intro x hx; simp at hx; subst hx; decide)
  have hcw := collectWords_two c2 c3 t2 t3
    (' ' :: ((c2 :: t2) ++ (' ' :: (c3 :: t3)))).length hc2 ht2 hl2 hc3 ht3 hl3
    (by simp)
  simp only [List.cons_append] at hpw hcw
  simp only [List.cons_append, matchNames, hpw]
  rw [hcw]
  simp

theorem matchNames_two (c1 c2 : Char) (t1 t2 : List Char)
    (hc1 : c1.isUpper = true) (ht1 : ∀ x ∈ t1, x.isLower = true) (hl1 : 2 ≤ t1.length)
    (hc2 : c2.isUpper = true) (ht2 : ∀ x ∈ t2, x.isLower = true) (hl2 : 2 ≤ t2.length) :
    matchNames ((c1 :: t1) ++ (' ' :: (c2 :: t2))) = none := by
  have hpw : parseWord ((c1 :: t1) ++ (' ' :: (c2 :: t2)))
      = some (c1 :: t1, ' ' :: (c2 :: t2)) :=
    parseWord_split c1 t1 _ hc1 ht1 hl1 (by intro x hx; simp at hx; subst hx; decide)
  have hcw := collectWords_one c2 t2 (' ' :: (c2 :: t2)).length hc2 ht2 hl2 (by simp)
  simp only [List.cons_append] at hpw hcw
  simp only [List.cons_append, matchNames, hpw]
  rw [hcw]
  simp

theorem matchNames_alone (c : Char) (t : List Char)
    (hc : c.isUpper = true) (ht : ∀ x ∈ t, x.isLower = true) (hl : 2 ≤ t.length) :
    matchNames (c :: t) = none := by
  have hpw := parseWord_split c t [] hc ht hl (by intro x hx; simp at hx)
  simp only [List.append_nil] at hpw
  simp [matchNames, hpw, collectWords_nil]

theorem censorNames_nil (fuel : Nat) (b : Bool) : censorNames fuel b [] = [] := by
  cases fuel <;> simp [censorNames]

theorem censorNames_match_head (c : Char) (rest r2 : List Char) (fuel : Nat)
    (hc : c.isUpper = true) (hm : matchNames (c :: rest) = some r2) :
    censorNames (fuel + 1) false (c :: rest)
      = "[REDACTED]".data ++ censorNames fuel true r2 := by
  simp [censorNames, hc, hm]

theorem censorNames_nomatch_head (c : Char) (rest : List Char) (fuel : Nat) (b : Bool)
    (hm : matchNames (c :: rest) = none) :
    censorNames (fuel + 1) b (c :: rest) = c :: censorNames fuel (isWordChar c) rest := by
  cases hcond : (!b && c.isUpper) <;> simp [censorNames, hcond, hm]

theorem censorNames_prevW (c : Char) (rest : List Char) (fuel : Nat) :
    censorNames (fuel + 1) true (c :: rest) = c :: censorNames fuel (isWordChar c) rest := by
  simp [censorNames]

theorem censorNames_lower_walk (t : List Char) (ht : ∀ x ∈ t, x.isLower = true)
    (hne : t ≠ []) :
    ∀ (fuel : Nat) (b : Bool) (r : List Char),
      censorNames (t.length + fuel) b (t ++ r) = t ++ censorNames fuel true r := by
  induction t with
  | nil => exact absurd rfl hne
  | cons x t ih =>
    intro fuel b r
    have hx : x.isLower = true := ht x (by simp)
    have hxu : x.isUpper = false := lower_not_upper x hx
    have hxw : isWordChar x = true := lower_isWord x hx
    have hlen : (x :: t).length + fuel = (t.length + fuel) + 1 := by simp; omega
    rw [hlen, List.cons_append]
    have hstep : censorNames ((t.length + fuel) + 1) b (x :: (t ++ r))
        = x :: censorNames (t.length + fuel) (isWordChar x) (t ++ r) := by
      cases hcond : (!b && x.isUpper)
      · simp [censorNames, hcond]
      · rw [hxu] at hcond
        simp at hcond
    rw [hstep, hxw]
    by_cases htnil : t = []
    · subst htnil
      simp
    · have ht' : ∀ y ∈ t, y.isLower = true := fun y hy => ht y (by simp [hy])
      rw [ih ht' htnil fuel true r]
      simp

theorem matchNames_none_of_no_space (cs : List Char)
    (h : ∀ x ∈ cs, isPySpace x = false) : matchNames cs = none := by
  rcases hp : parseWord cs with _ | ⟨w, r1⟩
  · simp [matchNames, hp]
  · have hcs := parseWord_eq_append cs w r1 hp
    have hr1 : ∀ x, r1.head? = some x → isPySpace x = false := by
      intro x hx
      apply h
      rw [hcs]
      cases r1 with
      | nil => simp at hx
      | cons y r =>
        simp at hx
        subst hx
        simp
    have hcw := collectWords_stop r1.length r1 hr1
    simp [matchNames, hp, hcw]

theorem censorNames_no_space (fuel : Nat) :
    ∀ (cs : List Char) (b : Bool), (∀ x ∈ cs, isPySpace x = false) →
      censorNames fuel b cs = cs := by
  induction fuel with
  | zero =>
    intro cs b h
    simp [censorNames]
  | succ f ih =>
    intro cs b h
    cases cs with
    | nil => simp [censorNames]
    | cons c rest =>
      have hm := matchNames_none_of_no_space (c :: rest) h
      rw [censorNames_nomatch_head c rest f b hm]
      rw [ih rest (isWordChar c) (fun x hx => h x (by simp [hx]))]

theorem matchEmail_split (l d t : List Char)
    (hl : l ≠ []) (hd : d ≠ []) (ht : t ≠ [])
    (hlc : ∀ x ∈ l, isLocalChar x = true) (hdc : ∀ x ∈ d, isDomChar x = true)
    (htc : ∀ x ∈ t, isTldChar x = true) :
    matchEmail (l ++ ('@' :: (d ++ ('.' :: t)))) = some [] := by
  have hsp1 : spanP isLocalChar (l ++ ('@' :: (d ++ ('.' :: t))))
      = (l, '@' :: (d ++ ('.' :: t))) :=
    spanP_split _ _ _ hlc (by intro x hx; simp at hx; subst hx; decide)
  have hsp2 : spanP isDomChar (d ++ ('.' :: t)) = (d, '.' :: t) :=
    spanP_split _ _ _ hdc (by intro x hx; simp at hx; subst hx; decide)
  have hsp3 : spanP isTldChar (t ++ []) = (t, []) :=
    spanP_split _ _ _ htc (by intro x hx; simp at hx)
  simp only [List.append_nil] at hsp3
  simp [matchEmail, hsp1, hsp2, hsp3, hl, hd, ht]

theorem matchEmail_none_of_no_at (cs : List Char) (h : ∀ x ∈ cs, x ≠ '@') :
    matchEmail cs = none := by
  rcases hsp : spanP isLocalChar cs with ⟨loc, r1⟩
  have hcs : loc ++ r1 = cs := by
    rw [← spanP_eq_append isLocalChar cs, hsp]
  by_cases hloc : loc = []
  · simp [matchEmail, hsp, hloc]
  · cases r1 with
    | nil => simp [matchEmail, hsp, hloc]
    | cons c r2 =>
      have hc : c ≠ '@' := by
        apply h
        rw [← hcs]
        simp
      simp only [matchEmail, hsp, hloc, if_false]
      split
      · next heq => exact absurd (List.head_eq_of_cons_eq heq) hc
      · rfl

theorem censorEmails_nil (fuel : Nat) : censorEmails fuel [] = [] := by
  cases fuel <;> simp [censorEmails]

theorem censorEmails_match_head (c : Char) (rest r : List Char) (fuel : Nat)
    (hm : matchEmail (c :: rest) = some r) :
    censorEmails (fuel + 1) (c :: rest) = "[EMAIL]".data ++ censorEmails fuel r := by
  simp [censorEmails, hm]

theorem censorEmails_no_at (fuel : Nat) :
    ∀ cs : List Char, (∀ x ∈ cs, x ≠ '@') → censorEmails fuel cs = cs := by
  induction fuel with
  | zero =>
    intro cs h
    simp [censorEmails]
  | succ f ih =>
    intro cs h
    cases cs with
    | nil => simp [censorEmails]
    | cons c rest =>
      have hm := matchEmail_none_of_no_at (c :: rest) h
      simp only [censorEmails, hm]
      rw [ih rest (fun x hx => h x (by simp [hx]))]

theorem localChar_not_space (c : Char) (h : isLocalChar c = true) : isPySpace c = false := by
  by_contra hs
  rw [Bool.not_eq_false] at hs
  rcases space_of_isPySpace c hs with rfl | rfl | rfl | rfl | rfl | rfl <;>
    exact absurd h (by decide)

theorem domChar_not_space (c : Char) (h : isDomChar c = true) : isPySpace c = false := by
  by_contra hs
  rw [Bool.not_eq_false] at hs
  rcases space_of_isPySpace c hs with rfl | rfl | rfl | rfl | rfl | rfl <;>
    exact absurd h (by decide)

theorem tldChar_not_space (c : Char) (h : isTldChar c = true) : isPySpace c = false := by
  by_contra hs
  rw [Bool.not_eq_false] at hs
  rcases space_of_isPySpace c hs with rfl | rfl | rfl | rfl | rfl | rfl <;>
    exact absurd h (by decide)

theorem censor_pii_three (c1 c2 c3 : Char) (t1 t2 t3 : List Char)
    (hc1 : c1.isUpper = true) (ht1 : ∀ x ∈ t1, x.isLower = true) (hl1 : 2 ≤ t1.length)
    (hc2 : c2.isUpper = true) (ht2 : ∀ x ∈ t2, x.isLower = true) (hl2 : 2 ≤ t2.length)
    (hc3 : c3.isUpper = true) (ht3 : ∀ x ∈ t3, x.isLower = true) (hl3 : 2 ≤ t3.length) :
    censor_pii (String.mk ((c1 :: t1) ++ (' ' :: ((c2 :: t2) ++ (' ' :: (c3 :: t3))))))
      = "[REDACTED]" := by
  have hm := matchNames_three c1 c2 c3 t1 t2 t3 hc1 ht1 hl1 hc2 ht2 hl2 hc3 ht3 hl3
  simp only [List.cons_append] at hm
  have hn : censorNames
      ((c1 :: (t1 ++ ' ' :: c2 :: (t2 ++ ' ' :: c3 :: t3))).length) false
      (c1 :: (t1 ++ ' ' :: c2 :: (t2 ++ ' ' :: c3 :: t3)))
      = "[REDACTED]".data := by
    rw [List.length_cons, censorNames_match_head _ _ _ _ hc1 hm, censorNames_nil]
    simp
  have hdata : (String.mk ((c1 :: t1) ++ (' ' :: ((c2 :: t2) ++ (' ' :: (c3 :: t3)))))).data
      = (c1 :: t1) ++ (' ' :: ((c2 :: t2) ++ (' ' :: (c3 :: t3)))) := rfl
  simp only [censor_pii, hdata, List.cons_append]
  rw [hn]
  decide

theorem censor_pii_two (c1 c2 : Char) (t1 t2 : List Char)
    (hc1 : c1.isUpper = true) (ht1 : ∀ x ∈ t1, x.isLower = true) (hl1 : 2 ≤ t1.length)
    (hc2 : c2.isUpper = true) (ht2 : ∀ x ∈ t2, x.isLower = true) (hl2 : 2 ≤ t2.length) :
    censor_pii (String.mk ((c1 :: t1) ++ (' ' :: (c2 :: t2))))
      = String.mk ((c1 :: t1) ++ (' ' :: (c2 :: t2))) := by
  have hm2 := matchNames_two c1 c2 t1 t2 hc1 ht1 hl1 hc2 ht2 hl2
  simp only [List.cons_append] at hm2
  have ht1ne : t1 ≠ [] := by
    intro h
    rw [h] at hl1
    simp at hl1
  have ht2ne : t2 ≠ [] := by
    intro h
    rw [h] at hl2
    simp at hl2
  have hw2 : censorNames t2.length true t2 = t2 := by
    have h0 := censorNames_lower_walk t2 ht2 ht2ne 0 true []
    rw [censorNames_nil, List.append_nil, Nat.add_zero] at h0
    exact h0
  have hsw : isWordChar ' ' = false := by decide
  have hn : censorNames ((c1 :: (t1 ++ ' ' :: c2 :: t2)).length) false
      (c1 :: (t1 ++ ' ' :: c2 :: t2)) = c1 :: (t1 ++ ' ' :: c2 :: t2) := by
    rw [List.length_cons, censorNames_nomatch_head _ _ _ _ hm2, upper_isWord c1 hc1]
    rw [show t1 ++ ' ' :: c2 :: t2 = t1 ++ (' ' :: c2 :: t2) from rfl]
    rw [List.length_append]
    rw [censorNames_lower_walk t1 ht1 ht1ne ((' ' :: c2 :: t2).length) true (' ' :: c2 :: t2)]
    rw [List.length_cons, censorNames_prevW, hsw]
    rw [List.length_cons, censorNames_nomatch_head _ _ _ _ (matchNames_alone c2 t2 hc2 ht2 hl2)]
    rw [upper_isWord c2 hc2, hw2]
  have hnoat : ∀ x ∈ (c1 :: (t1 ++ ' ' :: c2 :: t2)), x ≠ '@' := by
    intro x hx
    simp at hx
    rcases hx with rfl | hx | rfl | rfl | hx
    · exact upper_ne_at x hc1
    · exact lower_ne_at x (ht1 x hx)
    · decide
    · exact upper_ne_at x hc2
    · exact lower_ne_at x (ht2 x hx)
  have hdata : (String.mk ((c1 :: t1) ++ (' ' :: (c2 :: t2)))).data
      = (c1 :: t1) ++ (' ' :: (c2 :: t2)) := rfl
  simp only [censor_pii, hdata, List.cons_append]
  rw [hn]
  rw [censorEmails_no_at _ _ hnoat]

theorem censor_pii_email (l d t : List Char)
    (hl : l ≠ []) (hd : d ≠ []) (ht : t ≠ [])
    (hlc : ∀ x ∈ l, isLocalChar x = true) (hdc : ∀ x ∈ d, isDomChar x = true)
    (htc : ∀ x ∈ t, isTldChar x = true) :
    censor_pii (String.mk (l ++ ('@' :: (d ++ ('.' :: t))))) = "[EMAIL]" := by
  have hm := matchEmail_split l d t hl hd ht hlc hdc htc
  have hnospace : ∀ x ∈ (l ++ ('@' :: (d ++ ('.' :: t)))), isPySpace x = false := by
    intro x hx
    simp at hx
    rcases hx with hx | rfl | hx | rfl | hx
    · exact localChar_not_space x (hlc x hx)
    · decide
    · exact domChar_not_space x (hdc x hx)
    · decide
    · exact tldChar_not_space x (htc x hx)
  obtain ⟨cl, lt, rfl⟩ : ∃ cl lt, l = cl :: lt := by
    cases l with
    | nil => exact absurd rfl hl
    | cons cl lt => exact ⟨cl, lt, rfl⟩
  simp only [List.cons_append] at hm hnospace
  have hn := censorNames_no_space
    ((cl :: (lt ++ '@' :: (d ++ '.' :: t))).length)
    (cl :: (lt ++ '@' :: (d ++ '.' :: t))) false hnospace
  have hE : censorEmails ((cl :: (lt ++ '@' :: (d ++ '.' :: t))).length)
      (cl :: (lt ++ '@' :: (d ++ '.' :: t))) = "[EMAIL]".data := by
    rw [List.length_cons, censorEmails_match_head _ _ _ _ hm, censorEmails_nil]
    simp
  have hdata : (String.mk ((cl :: lt) ++ ('@' :: (d ++ ('.' :: t))))).data
      = (cl :: lt) ++ ('@' :: (d ++ ('.' :: t))) := rfl
  simp only [censor_pii, hdata, List.cons_append]
  rw [hn, hE]

/-- Single-occurrence instances of the PII filter behaviour: a whole-text
three-word sequence is redacted, a whole-text two-word sequence is kept, a
whole-text email becomes the EMAIL placeholder.  The general decomposition
statement is censor_pii_sequences below. -/
theorem censor_pii_caps_threshold (c1 c2 c3 : Char) (t1 t2 t3 : List Char)
    (hc1 : c1.isUpper = true) (ht1 : ∀ x ∈ t1, x.isLower = true) (hl1 : 2 ≤ t1.length)
    (hc2 : c2.isUpper = true) (ht2 : ∀ x ∈ t2, x.isLower = true) (hl2 : 2 ≤ t2.length)
    (hc3 : c3.isUpper = true) (ht3 : ∀ x ∈ t3, x.isLower = true) (hl3 : 2 ≤ t3.length) :
    censor_pii (String.mk ((c1 :: t1) ++ (' ' :: ((c2 :: t2) ++ (' ' :: (c3 :: t3))))))
      = "[REDACTED]"
    ∧ censor_pii (String.mk ((c1 :: t1) ++ (' ' :: (c2 :: t2))))
      = String.mk ((c1 :: t1) ++ (' ' :: (c2 :: t2)))
    ∧ ∀ l d t : List Char, l ≠ [] → d ≠ [] → t ≠ [] →
        (∀ x ∈ l, isLocalChar x = true) → (∀ x ∈ d, isDomChar x = true) →
        (∀ x ∈ t, isTldChar x = true) →
        censor_pii (String.mk (l ++ ('@' :: (d ++ ('.' :: t))))) = "[EMAIL]" :=
  ⟨censor_pii_three c1 c2 c3 t1 t2 t3 hc1 ht1 hl1 hc2 ht2 hl2 hc3 ht3 hl3,
   censor_pii_two c1 c2 t1 t2 hc1 ht1 hl1 hc2 ht2 hl2,
   fun l d t hl hd ht hlc hdc htc => censor_pii_email l d t hl hd ht hlc hdc htc⟩

/-- Concrete instances: John Smith Does is redacted, John Smith is
unchanged, and bob at mail dot com becomes the EMAIL placeholder. -/
theorem censor_pii_caps_threshold_witness :
    censor_pii (String.mk (('J' :: ['o', 'h', 'n'])
        ++ (' ' :: (('S' :: ['m', 'i', 't', 'h']) ++ (' ' :: ('D' :: ['o', 'e', 's']))))))
      = "[REDACTED]"
    ∧ censor_pii (String.mk (('J' :: ['o', 'h', 'n']) ++ (' ' :: ('S' :: ['m', 'i', 't', 'h']))))
      = String.mk (('J' :: ['o', 'h', 'n']) ++ (' ' :: ('S' :: ['m', 'i', 't', 'h'])))
    ∧ censor_pii (String.mk (['b', 'o', 'b']
        ++ ('@' :: (['m', 'a', 'i', 'l'] ++ ('.' :: ['c', 'o', 'm']))))) = "[EMAIL]" := by
  obtain ⟨hA, hB, hC⟩ := censor_pii_caps_threshold 'J' 'S' 'D'
    ['o', 'h', 'n'] ['m', 'i', 't', 'h'] ['o', 'e', 's']
    (by decide) (by decide) (by decide) (by decide) (by decide) (by decide)
    (by decide) (by decide) (by decide)
  exact ⟨hA, hB, hC ['b', 'o', 'b'] ['m', 'a', 'i', 'l'] ['c', 'o', 'm']
    (by decide) (by decide) (by decide) (by decide) (by decide) (by decide)⟩

/-- C5 counterexample: the input John Smith holds a sequence of exactly two
consecutive capitalized words, yet censor_pii returns it unchanged — no
placeholder is substituted; with a third word the sequence is replaced.  The
pattern requires three or more words, not two or more. -/
theorem two_caps_words_not_redacted :
    censor_pii "John Smith" = "John Smith"
    ∧ censor_pii "John Smith Doe" = "[REDACTED]" := by
  constructor <;> decide

theorem transaction_attempt_x_agrees (a : AmountVal) (item : String) (st : LedgerState) :
    transaction_attempt_x a item (liftState st)
      = (liftOutcome (transaction_attempt a item st).1,
         liftState (transaction_attempt a item st).2) := by
  cases a with
  | nonNum => rfl
  | num a0 =>
    by_cases h1 : a0.leZero
    · simp [transaction_attempt_x, transaction_attempt, h1, liftState, liftOutcome]
    · by_cases h2 : 7 < st.stress_level ∧ a0.gtFifty
      · simp [transaction_attempt_x, transaction_attempt, h1, h2, liftState, liftOutcome]
      · have hbg : balGeX (.val st.balance) a0 = balGe st.balance a0 := by
          cases a0 <;> rfl
        by_cases h3 : balGe st.balance a0
        · have hsub : balSubX (.val st.balance) a0 = .val (st.balance - a0.toRat) := by
            cases a0 with
            | fin q => rfl
            | inf => rw [balGe] at h3; exact absurd h3 (by simp)
            | ninf => exact absurd rfl h1
            | nan => rw [balGe] at h3; exact absurd h3 (by simp)
          simp [transaction_attempt_x, transaction_attempt, h1, h2, liftState, liftOutcome,
            hbg, h3, hsub]
        · simp [transaction_attempt_x, transaction_attempt, h1, h2, liftState, liftOutcome,
            hbg, h3]

theorem purchase_execute_x_agrees (a : Amount) (item : String) (st : LedgerState) :
    purchase_execute_x a item (liftState st)
      = (liftOutcome (purchase_execute a item st).1,
         liftState (purchase_execute a item st).2) := by
  by_cases h1 : a.leZero
  · simp [purchase_execute_x, purchase_execute, h1, liftState, liftOutcome]
  · have hbg : balGeX (.val st.balance) a = balGe st.balance a := by
      cases a <;> rfl
    by_cases h3 : balGe st.balance a
    · have hsub : balSubX (.val st.balance) a = .val (st.balance - a.toRat) := by
        cases a with
        | fin q => rfl
        | inf => rw [balGe] at h3; exact absurd h3 (by simp)
        | ninf => exact absurd rfl h1
        | nan => rw [balGe] at h3; exact absurd h3 (by simp)
      simp [purchase_execute_x, purchase_execute, h1, liftState, liftOutcome, hbg, h3, hsub]
    · simp [purchase_execute_x, purchase_execute, h1, liftState, liftOutcome, hbg, h3]

theorem add_income_x_agrees (q : Rat) (source : String) (st : LedgerState) :
    add_income_x (.fin q) source (liftState st)
      = (liftOutcome (add_income q source st).1,
         liftState (add_income q source st).2) := by
  by_cases h : q ≤ 0 <;>
    simp [add_income_x, add_income, Amount.leZero, h, liftState, liftOutcome, balAddX]

theorem applyOpX_lift (st : LedgerState) (op : Op) :
    applyOpX (liftState st) op = liftState (applyOp st op) := by
  cases op with
  | purchase q item =>
    simp [applyOpX, applyOp, opResultX, opResult, transaction_attempt_x_agrees]
  | income q source =>
    simp [applyOpX, applyOp, opResultX, opResult, add_income_x_agrees]

theorem runOpsX_lift (ops : List Op) (st : LedgerState) :
    runOpsX (liftState st) ops = liftState (runOps st ops) := by
  induction ops generalizing st with
  | nil => rfl
  | cons op ops ih =>
    simp only [runOpsX, runOps, List.foldl_cons]
    rw [applyOpX_lift]
    exact ih (applyOp st op)

theorem opStepX_append (st : LedgerStateX) (op : Op) (h : 0 < op.amount) :
    ∃ t : Transaction, (applyOpX st op).log = st.log ++ [t]
      ∧ some t.status = ((opResultX st op).1).toStatus := by
  cases op with
  | purchase q item =>
    have hq' : ¬ (q ≤ 0) := not_le.mpr h
    by_cases hs : 7 < st.stress_level ∧ Amount.gtFifty (.fin q)
    · refine ⟨⟨item, .fin q, .BLOCKED⟩, ?_, ?_⟩ <;>
        simp [applyOpX, opResultX, transaction_attempt_x, Amount.leZero, hq', hs,
          OutcomeX.toStatus]
    · by_cases hb : balGeX st.balance (.fin q)
      · refine ⟨⟨item, .fin q, .ALLOWED⟩, ?_, ?_⟩ <;>
          simp [applyOpX, opResultX, transaction_attempt_x, Amount.leZero, hq', hs, hb,
            OutcomeX.toStatus]
      · refine ⟨⟨item, .fin q, .BLOCKED⟩, ?_, ?_⟩ <;>
          simp [applyOpX, opResultX, transaction_attempt_x, Amount.leZero, hq', hs, hb,
            OutcomeX.toStatus]
  | income q source =>
    have hq' : ¬ (q ≤ 0) := not_le.mpr h
    refine ⟨⟨"Income: " ++ source, .fin q, .INCOME⟩, ?_, ?_⟩ <;>
      simp [applyOpX, opResultX, add_income_x, Amount.leZero, hq',
        OutcomeX.toStatus]

/-- C2 counterexample: an income addition with amount nan is accepted by
the validation check (the Python comparison nan <= 0 is False), appends its
INCOME row, and the credit UPDATE sets the balance column to NULL (a nan
parameter binds as NULL), after which the balance equals no number at all,
so the balance equation of the claim cannot hold for this accepted
sequence. -/
theorem nan_income_breaks_ledger_equation :
    (add_income_x .nan "gift" ⟨.val 100, 2, []⟩).2.balance = .null
    ∧ (∀ q : Rat, (BalCol.null : BalCol) ≠ .val q)
    ∧ (add_income_x .nan "gift" ⟨.val 100, 2, []⟩).2.log
        = [⟨"Income: gift", .nan, .INCOME⟩]
    ∧ (add_income_x .nan "gift" ⟨.val 100, 2, []⟩).1 = .income .null :=
  ⟨rfl, fun _ h => BalCol.noConfusion h, rfl, rfl⟩

/-- C2 (amended): Starting from a finite balance and an empty log, after
any sequence of purchase evaluations and income additions with positive
finite amounts, the balance is the finite number initial balance minus the
sum of amounts on ALLOWED rows plus the sum of amounts on INCOME rows; each
event appends exactly one row, with status matching the decision, from any
full-domain state.  (An income addition with amount nan instead nulls the
balance: see the counterexample.) -/
theorem ledger_balance_invariant_full (init : LedgerState) (ops : List Op)
    (hlog : init.log = [])
    (hpos : ∀ op ∈ ops, 0 < op.amount) :
    (runOpsX (liftState init) ops).balance
      = .val (init.balance - statusSum .ALLOWED (runOpsX (liftState init) ops).log
              + statusSum .INCOME (runOpsX (liftState init) ops).log)
    ∧ (runOpsX (liftState init) ops).log.length = ops.length
    ∧ (∀ st : LedgerStateX, ∀ op ∈ ops,
        ∃ t : Transaction, (applyOpX st op).log = st.log ++ [t]
          ∧ some t.status = ((opResultX st op).1).toStatus) := by
  have hl := runOpsX_lift ops init
  have hfin := ledger_balance_invariant init ops hlog hpos
  refine ⟨?_, ?_, fun st op hop => opStepX_append st op (hpos op hop)⟩
  · rw [hl]
    simp only [liftState]
    exact congrArg BalCol.val hfin.1
  · rw [hl]
    simpa [liftState] using hfin.2.1

/-- C2 witness: from finite balance 100 and an empty log, an allowed
purchase of 30, a blocked attempt of 500 and an income of 20 satisfy the
balance equation on the full-domain run, which logs three rows. -/
theorem ledger_balance_invariant_full_witness :
    (runOpsX (liftState ⟨100, 2, []⟩)
        [.purchase 30 "book", .purchase 500 "tv", .income 20 "salary"]).balance
      = .val (100 - statusSum .ALLOWED (runOpsX (liftState ⟨100, 2, []⟩)
            [.purchase 30 "book", .purchase 500 "tv", .income 20 "salary"]).log
          + statusSum .INCOME (runOpsX (liftState ⟨100, 2, []⟩)
            [.purchase 30 "book", .purchase 500 "tv", .income 20 "salary"]).log)
    ∧ (runOpsX (liftState ⟨100, 2, []⟩)
        [.purchase 30 "book", .purchase 500 "tv", .income 20 "salary"]).log.length = 3 :=
  ⟨(ledger_balance_invariant_full ⟨100, 2, []⟩
      [.purchase 30 "book", .purchase 500 "tv", .income 20 "salary"] rfl
      (by intro op hop; fin_cases hop <;> norm_num [Op.amount])).1,
   (ledger_balance_invariant_full ⟨100, 2, []⟩
      [.purchase 30 "book", .purchase 500 "tv", .income 20 "salary"] rfl
      (by intro op hop; fin_cases hop <;> norm_num [Op.amount])).2.1⟩

/-- C6 counterexample: from the nonnegative balance 100, an income addition
with amount nan passes the validation check and sets the balance to NULL,
which is not a nonnegative number: an income addition the code accepts does
not preserve balance >= 0. -/
theorem nan_income_not_nonneg :
    balNonNegX (add_income_x .nan "bonus" ⟨.val 100, 2, []⟩).2.balance = false
    ∧ (add_income_x .nan "bonus" ⟨.val 100, 2, []⟩).2.balance = .null :=
  ⟨rfl, rfl⟩

theorem balGeX_val_elim (b : Rat) (a : Amount) (hz : ¬ a.leZero = true)
    (hg : balGeX (.val b) a = true) : ∃ q, a = .fin q ∧ q ≤ b := by
  cases a with
  | fin q => exact ⟨q, rfl, by simpa [balGeX] using hg⟩
  | inf => simp [balGeX] at hg
  | ninf => simp [Amount.leZero] at hz
  | nan => simp [balGeX] at hg

theorem transaction_attempt_x_balance_val (a : Amount) (item : String)
    (b : Rat) (s : Int) (log : List Transaction) :
    (transaction_attempt_x (.num a) item ⟨.val b, s, log⟩).2.balance = .val b
    ∨ (∃ q, a = .fin q ∧ q ≤ b
       ∧ (transaction_attempt_x (.num a) item ⟨.val b, s, log⟩).2.balance = .val (b - q)) := by
  by_cases h1 : a.leZero
  · left; simp [transaction_attempt_x, h1]
  · by_cases h2 : 7 < s ∧ a.gtFifty
    · left; simp [transaction_attempt_x, h1, h2]
    · by_cases h3 : balGeX (.val b) a
      · obtain ⟨q, rfl, hq⟩ := balGeX_val_elim b a h1 h3
        right
        exact ⟨q, rfl, hq, by simp [transaction_attempt_x, h1, h2, h3, balSubX]⟩
      · left; simp [transaction_attempt_x, h1, h2, h3]

theorem purchase_execute_x_balance_val (a : Amount) (item : String)
    (b : Rat) (s : Int) (log : List Transaction) :
    (purchase_execute_x a item ⟨.val b, s, log⟩).2.balance = .val b
    ∨ (∃ q, a = .fin q ∧ q ≤ b
       ∧ (purchase_execute_x a item ⟨.val b, s, log⟩).2.balance = .val (b - q)) := by
  by_cases h1 : a.leZero
  · left; simp [purchase_execute_x, h1]
  · by_cases h3 : balGeX (.val b) a
    · obtain ⟨q, rfl, hq⟩ := balGeX_val_elim b a h1 h3
      right
      exact ⟨q, rfl, hq, by simp [purchase_execute_x, h1, h3, balSubX]⟩
    · left; simp [purchase_execute_x, h1, h3]

/-- C6 (amended): For every user whose stored balance is a finite
nonnegative number, every purchase evaluation and every purchase execution
— with any amount value, finite or not — leaves the balance a nonnegative
number, debiting only through the single conditional compare-and-update
(the balance is unchanged, or the amount was a finite q at most the balance
and exactly q was subtracted); every income addition whose amount is not
nan also leaves the balance nonnegative (a +inf amount drives it to
Infinity, which the comparison treats as the largest value); an income
addition with amount nan instead sets the balance to NULL (see the
counterexample). -/
theorem conditional_debit_nonneg_full (b : Rat) (s : Int) (log : List Transaction)
    (h : 0 ≤ b) :
    (∀ a item, balNonNegX (transaction_attempt_x a item ⟨.val b, s, log⟩).2.balance = true)
    ∧ (∀ a item, balNonNegX (purchase_execute_x a item ⟨.val b, s, log⟩).2.balance = true)
    ∧ (∀ a source, a ≠ Amount.nan →
        balNonNegX (add_income_x a source ⟨.val b, s, log⟩).2.balance = true)
    ∧ (∀ a item, (transaction_attempt_x (.num a) item ⟨.val b, s, log⟩).2.balance = .val b
        ∨ (∃ q, a = .fin q ∧ q ≤ b
           ∧ (transaction_attempt_x (.num a) item ⟨.val b, s, log⟩).2.balance
               = .val (b - q)))
    ∧ (∀ a item, (purchase_execute_x a item ⟨.val b, s, log⟩).2.balance = .val b
        ∨ (∃ q, a = .fin q ∧ q ≤ b
           ∧ (purchase_execute_x a item ⟨.val b, s, log⟩).2.balance = .val (b - q))) := by
  refine ⟨?_, ?_, ?_, fun a item => transaction_attempt_x_balance_val a item b s log,
    fun a item => purchase_execute_x_balance_val a item b s log⟩
  · rintro (a | _) item
    · rcases transaction_attempt_x_balance_val a item b s log with h1 | ⟨q, rfl, hq, h2⟩
      · rw [h1]; simpa [balNonNegX] using h
      · rw [h2]; simp [balNonNegX]; linarith
    · simpa [transaction_attempt_x, balNonNegX] using h
  · intro a item
    rcases purchase_execute_x_balance_val a item b s log with h1 | ⟨q, rfl, hq, h2⟩
    · rw [h1]; simpa [balNonNegX] using h
    · rw [h2]; simp [balNonNegX]; linarith
  · intro a source hnan
    cases a with
    | fin q =>
      by_cases hq : q ≤ 0
      · simp [add_income_x, Amount.leZero, hq, balNonNegX]; linarith
      · push_neg at hq
        simp [add_income_x, Amount.leZero, not_le.mpr hq, balAddX, balNonNegX]
        linarith
    | inf => simp [add_income_x, Amount.leZero, balAddX, balNonNegX]
    | ninf => simp [add_income_x, Amount.leZero, balNonNegX]; linarith
    | nan => exact absurd rfl hnan

/-- C6 witness: from finite balance 100, an attempt of 60 leaves the
balance a nonnegative number. -/
theorem conditional_debit_nonneg_full_witness :
    balNonNegX (transaction_attempt_x (.num (.fin 60)) "tv" ⟨.val 100, 2, []⟩).2.balance
      = true :=
  (conditional_debit_nonneg_full 100 2 [] (by norm_num)).1 (.num (.fin 60)) "tv"

theorem space_not_upper (c : Char) (h : isPySpace c = true) : c.isUpper = false := by
  by_contra hu
  rw [Bool.not_eq_false] at hu
  rw [upper_not_space c hu] at h
  exact Bool.false_ne_true h

theorem space_not_lower (c : Char) (h : isPySpace c = true) : c.isLower = false := by
  by_contra hl
  rw [Bool.not_eq_false] at hl
  rw [lower_not_space c hl] at h
  exact Bool.false_ne_true h

theorem space_not_word (c : Char) (h : isPySpace c = true) : isWordChar c = false := by
  rcases space_of_isPySpace c h with rfl | rfl | rfl | rfl | rfl | rfl <;> decide

theorem space_ne_at (c : Char) (h : isPySpace c = true) : c ≠ '@' := by
  rcases space_of_isPySpace c h with rfl | rfl | rfl | rfl | rfl | rfl <;> decide

theorem notWord_not_lower (c : Char) (h : isWordChar c = false) : c.isLower = false := by
  by_contra hl
  rw [Bool.not_eq_false] at hl
  rw [lower_isWord c hl] at h
  exact absurd h (by decide)

theorem notWord_not_upper (c : Char) (h : isWordChar c = false) : c.isUpper = false := by
  by_contra hu
  rw [Bool.not_eq_false] at hu
  rw [upper_isWord c hu] at h
  exact absurd h (by decide)

theorem capsShape_elim (w : List Char) (h : capsShape w = true) :
    ∃ c t, w = c :: t ∧ c.isUpper = true ∧ (∀ x ∈ t, x.isLower = true) ∧ 2 ≤ t.length := by
  cases w with
  | nil => simp [capsShape] at h
  | cons c t =>
    simp only [capsShape, Bool.and_eq_true, decide_eq_true_eq, List.all_eq_true] at h
    exact ⟨c, t, rfl, h.1.1, h.1.2, h.2⟩

theorem spanP_cons_pos (p : Char → Bool) (c : Char) (l : List Char) (h : p c = true) :
    spanP p (c :: l) = (c :: (spanP p l).1, (spanP p l).2) := by
  simp [spanP, h]

theorem spanP_drop_mem (p : Char → Bool) (l : List Char) (x : Char)
    (h : x ∈ (spanP p l).2) : x ∈ l := by
  have := spanP_eq_append p l
  rw [← this]
  exact List.mem_append_right _ h

theorem spanP_all_of_drop_nil (p : Char → Bool) (l : List Char)
    (h : (spanP p l).2 = []) : ∀ x ∈ l, p x = true := by
  induction l with
  | nil => simp
  | cons c l ih =>
    by_cases hc : p c
    · rw [spanP_cons_pos p c l hc] at h
      intro x hx
      rcases List.mem_cons.mp hx with rfl | hx
      · exact hc
      · exact ih h x hx
    · simp [spanP, hc] at h

theorem spanP_append_left (p : Char → Bool) (a b : List Char)
    (h : (spanP p a).2 ≠ []) :
    spanP p (a ++ b) = ((spanP p a).1, (spanP p a).2 ++ b) := by
  induction a with
  | nil => simp [spanP] at h
  | cons c a ih =>
    by_cases hc : p c
    · rw [spanP_cons_pos p c a hc] at h
      simp only [List.cons_append, spanP_cons_pos p c (a ++ b) hc,
        spanP_cons_pos p c a hc]
      rw [ih h]
    · simp [spanP, hc]

theorem spanP_stops_inside (p : Char → Bool) (l : List Char) (r : List Char)
    (hne : l ≠ [])
    (hl : l.getLast?.all (fun c => !p c) = true) :
    ∃ c rest0, (spanP p (l ++ r)).2 = c :: rest0 ∧ c ∈ l ∧ p c = false := by
  induction l with
  | nil => exact absurd rfl hne
  | cons x l ih =>
    cases l with
    | nil =>
      simp only [List.getLast?_singleton, Option.all_some, Bool.not_eq_true'] at hl
      refine ⟨x, r, ?_, by simp, hl⟩
      simp [spanP, hl]
    | cons y l' =>
      have hl' : (y :: l').getLast?.all (fun c => !p c) = true := by
        rwa [List.getLast?_cons_cons] at hl
      by_cases hx : p x
      · obtain ⟨c, rest0, hsp, hmem, hpc⟩ := ih (by simp) hl'
        refine ⟨c, rest0, ?_, by simp [hmem], hpc⟩
        rw [List.cons_append, spanP_cons_pos p x ((y :: l') ++ r) hx]
        exact hsp
      · rw [Bool.not_eq_true] at hx
        refine ⟨x, (y :: l') ++ r, ?_, by simp, hx⟩
        simp [spanP, hx]

theorem parseWord_none (cs : List Char)
    (h : ∀ c, cs.head? = some c → c.isUpper = false) : parseWord cs = none := by
  cases cs with
  | nil => rfl
  | cons c rest => simp [parseWord, h c rfl]

theorem collectWords_stop_soft (fuel : Nat) (Y : List Char)
    (h : ∀ c, (spanP isPySpace Y).2.head? = some c → c.isUpper = false) :
    collectWords fuel Y = ([], Y) := by
  cases fuel with
  | zero => rfl
  | succ f =>
    rcases hsp : spanP isPySpace Y with ⟨sp, r⟩
    by_cases hspe : sp = []
    · simp [collectWords, hsp, hspe]
    · have hpw : parseWord r = none := by
        apply parseWord_none
        intro c hc
        apply h
        rw [hsp]
        exact hc
      simp [collectWords, hsp, hspe, hpw]

theorem flatten_pairs_len (ps : List (List Char × List Char))
    (h : ∀ p ∈ ps, p.1 ≠ []) :
    ps.length ≤ ((ps.map fun p => p.1 ++ p.2).flatten).length := by
  induction ps with
  | nil => simp
  | cons pr ps ih =>
    obtain ⟨sp, w⟩ := pr
    have hsp : sp ≠ [] := h (sp, w) (by simp)
    have hlen : 1 ≤ sp.length := by
      cases sp with
      | nil => exact absurd rfl hsp
      | cons a b => simp
    have := ih (fun p hp => h p (by simp [hp]))
    simp only [List.map_cons, List.flatten_cons, List.length_append, List.length_cons]
    omega

theorem head_not_lower_mixed (ps : List (List Char × List Char)) (Y : List Char)
    (hps : ∀ p ∈ ps, p.1 ≠ [] ∧ (∀ x ∈ p.1, isPySpace x = true))
    (hY : ∀ c, Y.head? = some c → c.isLower = false) :
    ∀ c, (((ps.map fun p => p.1 ++ p.2).flatten) ++ Y).head? = some c → c.isLower = false := by
  cases ps with
  | nil =>
    intro c hc
    exact hY c (by simpa using hc)
  | cons pr ps =>
    obtain ⟨sp, w⟩ := pr
    obtain ⟨hne, hall⟩ := hps (sp, w) (by simp)
    cases sp with
    | nil => exact absurd rfl hne
    | cons a sp' =>
      intro c hc
      simp at hc
      subst hc
      exact space_not_lower a (hall a (by simp))

theorem collectWords_pairs (ps : List (List Char × List Char)) (Y : List Char)
    (hps : ∀ p ∈ ps, p.1 ≠ [] ∧ (∀ x ∈ p.1, isPySpace x = true) ∧ capsShape p.2 = true)
    (hY1 : ∀ c, Y.head? = some c → c.isLower = false)
    (hY2 : ∀ c, (spanP isPySpace Y).2.head? = some c → c.isUpper = false) :
    ∀ fuel, ps.length ≤ fuel →
      collectWords fuel (((ps.map fun p => p.1 ++ p.2).flatten) ++ Y) = (ps, Y) := by
  induction ps with
  | nil =>
    intro fuel _
    simpa using collectWords_stop_soft fuel Y hY2
  | cons pr ps ih =>
    obtain ⟨sp, w⟩ := pr
    obtain ⟨hne, hall, hw⟩ := hps (sp, w) (by simp)
    obtain ⟨c0, t0, rfl, hc0, ht0, hl0⟩ := capsShape_elim w hw
    intro fuel hfuel
    obtain ⟨f, rfl⟩ : ∃ f, fuel = f + 1 := ⟨fuel - 1, by simp at hfuel; omega⟩
    have hsp : spanP isPySpace (sp ++ ((c0 :: t0) ++ (((ps.map fun p => p.1 ++ p.2).flatten) ++ Y)))
        = (sp, (c0 :: t0) ++ (((ps.map fun p => p.1 ++ p.2).flatten) ++ Y)) := by
      apply spanP_split _ _ _ hall
      intro x hx
      simp at hx
      subst hx
      exact upper_not_space c0 hc0
    have hpw : parseWord ((c0 :: t0) ++ (((ps.map fun p => p.1 ++ p.2).flatten) ++ Y))
        = some (c0 :: t0, ((ps.map fun p => p.1 ++ p.2).flatten) ++ Y) := by
      apply parseWord_split c0 t0 _ hc0 ht0 hl0
      exact head_not_lower_mixed ps Y (fun p hp => ⟨(hps p (by simp [hp])).1,
        (hps p (by simp [hp])).2.1⟩) hY1
    have hrec := ih (fun p hp => hps p (by simp [hp])) (f) (by simp at hfuel; omega)
    have hinput : ((((sp, c0 :: t0) :: ps).map fun p => p.1 ++ p.2).flatten) ++ Y
        = sp ++ ((c0 :: t0) ++ (((ps.map fun p => p.1 ++ p.2).flatten) ++ Y)) := by
      simp
    rw [hinput]
    simp only [collectWords, hsp]
    simp only [hne, if_false]
    rw [hpw]
    simp only [hrec]

theorem NameSeq.ok_elim (s : NameSeq) (h : s.ok = true) :
    capsShape s.w0 = true
    ∧ ∀ p ∈ s.rest, p.1 ≠ [] ∧ (∀ x ∈ p.1, isPySpace x = true) ∧ capsShape p.2 = true := by
  simp only [NameSeq.ok, Bool.and_eq_true, List.all_eq_true] at h
  refine ⟨h.1, fun p hp => ?_⟩
  have hh := h.2 p hp
  simp only [Bool.and_eq_true] at hh
  refine ⟨?_, ?_, hh.2⟩
  · have h1 := hh.1.1
    simp only [Bool.not_eq_true'] at h1
    intro he
    rw [he] at h1
    simp at h1
  · intro x hx
    exact hh.1.2 x hx

theorem matchNames_seq (w0 : List Char) (ps : List (List Char × List Char)) (Y : List Char)
    (h0 : capsShape w0 = true)
    (hps : ∀ p ∈ ps, p.1 ≠ [] ∧ (∀ x ∈ p.1, isPySpace x = true) ∧ capsShape p.2 = true)
    (hY1 : ∀ c, Y.head? = some c → isWordChar c = false)
    (hY2 : ∀ c, (spanP isPySpace Y).2.head? = some c → c.isUpper = false) :
    matchNames (w0 ++ (((ps.map fun p => p.1 ++ p.2).flatten) ++ Y))
      = if 2 ≤ ps.length then some Y else none := by
  obtain ⟨c0, t0, rfl, hc0, ht0, hl0⟩ := capsShape_elim w0 h0
  have hY1' : ∀ c, Y.head? = some c → c.isLower = false :=
    fun c hc => notWord_not_lower c (hY1 c hc)
  have hpw : parseWord ((c0 :: t0) ++ (((ps.map fun p => p.1 ++ p.2).flatten) ++ Y))
      = some (c0 :: t0, ((ps.map fun p => p.1 ++ p.2).flatten) ++ Y) := by
    apply parseWord_split c0 t0 _ hc0 ht0 hl0
    exact head_not_lower_mixed ps Y (fun p hp => ⟨(hps p hp).1, (hps p hp).2.1⟩) hY1'
  have hflen : ps.length ≤ ((((ps.map fun p => p.1 ++ p.2).flatten) ++ Y)).length := by
    have := flatten_pairs_len ps (fun p hp => (hps p hp).1)
    simp only [List.length_append]
    omega
  have hcw := collectWords_pairs ps Y hps hY1' hY2
    ((((ps.map fun p => p.1 ++ p.2).flatten) ++ Y)).length hflen
  simp only [matchNames, hpw]
  rw [hcw]
  by_cases hlen : 2 ≤ ps.length
  · cases hY : Y with
    | nil => simp [hlen]
    | cons c ys =>
      have hcw2 : isWordChar c = false := hY1 c (by rw [hY]; rfl)
      simp [hlen, hcw2]
  · simp [hlen]

theorem pFlag_cons (x : Char) (p : List Char) (b : Bool) :
    pFlag (x :: p) b = pFlag p (isWordChar x) := rfl

theorem pFlag_of_getLast_nonword :
    ∀ (p : List Char) (b : Bool), p ≠ [] →
      p.getLast?.all (fun c => !isWordChar c) = true → pFlag p b = false := by
  intro p
  induction p with
  | nil =>
    intro b hne _
    exact absurd rfl hne
  | cons x p ih =>
    intro b _ h
    cases p with
    | nil =>
      simp only [List.getLast?_singleton, Option.all_some, Bool.not_eq_true'] at h
      simp [pFlag, h]
    | cons y p' =>
      show pFlag (y :: p') (isWordChar x) = false
      exact ih (isWordChar x) (List.cons_ne_nil y p')
        (by rwa [List.getLast?_cons_cons] at h)

theorem pFlag_of_all_lower :
    ∀ (p : List Char) (b : Bool), p ≠ [] →
      (∀ x ∈ p, x.isLower = true) → pFlag p b = true := by
  intro p
  induction p with
  | nil =>
    intro b hne _
    exact absurd rfl hne
  | cons x p ih =>
    intro b _ h
    cases p with
    | nil => simp [pFlag, lower_isWord x (h x (by simp))]
    | cons y p' =>
      show pFlag (y :: p') (isWordChar x) = true
      exact ih (isWordChar x) (List.cons_ne_nil y p') (fun z hz => h z (by simp [hz]))

theorem censorNames_plain_walk (p : List Char) (hp : ∀ x ∈ p, x.isUpper = false) :
    ∀ (fuel : Nat) (b : Bool) (r : List Char),
      censorNames (p.length + fuel) b (p ++ r) = p ++ censorNames fuel (pFlag p b) r := by
  induction p with
  | nil =>
    intro fuel b r
    simp [pFlag]
  | cons x p ih =>
    intro fuel b r
    have hx : x.isUpper = false := hp x (by simp)
    have hlen : (x :: p).length + fuel = (p.length + fuel) + 1 := by simp; omega
    rw [hlen, List.cons_append]
    have hstep : censorNames ((p.length + fuel) + 1) b (x :: (p ++ r))
        = x :: censorNames (p.length + fuel) (isWordChar x) (p ++ r) := by
      cases hcond : (!b && x.isUpper)
      · simp [censorNames, hcond]
      · rw [hx] at hcond
        simp at hcond
    rw [hstep, ih (fun y hy => hp y (by simp [hy])) fuel (isWordChar x) r, pFlag_cons]
    simp

theorem censorNames_no_upper (fuel : Nat) :
    ∀ (cs : List Char) (b : Bool), (∀ x ∈ cs, x.isUpper = false) →
      censorNames fuel b cs = cs := by
  induction fuel with
  | zero =>
    intro cs b _
    simp [censorNames]
  | succ f ih =>
    intro cs b h
    cases cs with
    | nil => simp [censorNames]
    | cons c rest =>
      have hc : c.isUpper = false := h c (by simp)
      have hstep : censorNames (f + 1) b (c :: rest)
          = c :: censorNames f (isWordChar c) rest := by
        cases hcond : (!b && c.isUpper)
        · simp [censorNames, hcond]
        · rw [hc] at hcond
          simp at hcond
      rw [hstep, ih rest (isWordChar c) (fun x hx => h x (by simp [hx]))]

theorem mem_of_head_eq {α : Type} {l : List α} {c : α} (h : l.head? = some c) : c ∈ l := by
  cases l with
  | nil => simp at h
  | cons x t =>
    simp only [List.head?_cons, Option.some.injEq] at h
    subst h
    simp

theorem mem_of_getLast_eq {α : Type} {l : List α} {c : α} (h : l.getLast? = some c) : c ∈ l := by
  induction l with
  | nil => simp at h
  | cons x t ih =>
    cases t with
    | nil =>
      simp only [List.getLast?_singleton, Option.some.injEq] at h
      subst h
      simp
    | cons y t2 =>
      rw [List.getLast?_cons_cons] at h
      exact List.mem_cons_of_mem x (ih h)

theorem ne_nil_of_not_empty {α : Type} {l : List α} (h : l.isEmpty = false) : l ≠ [] := by
  intro he
  rw [he] at h
  simp at h

theorem option_all_not_elim {o : Option Char} {q : Char → Bool}
    (h : o.all (fun c => !q c) = true) : ∀ c, o = some c → q c = false := by
  intro c hc
  rw [hc] at h
  simpa using h

theorem head_append_of_ne {α : Type} (a b : List α) (ha : a ≠ []) :
    (a ++ b).head? = a.head? := by
  cases a with
  | nil => exact absurd rfl ha
  | cons x t => rfl

theorem plainOk_elim (p : List Char) (h : plainOk p = true) :
    ∀ x ∈ p, x.isUpper = false ∧ x ≠ '@' := by
  intro x hx
  simp only [plainOk, List.all_eq_true, Bool.and_eq_true, Bool.not_eq_true',
    decide_eq_true_eq] at h
  exact h x hx

theorem tailPlain_elim (p : List Char) (h : tailPlain p = true) :
    plainOk p = true ∧ p.head?.all (fun c => !isWordChar c) = true := by
  simp only [tailPlain, Bool.and_eq_true] at h
  exact h

theorem midPlain_elim (p : List Char) (h : midPlain p = true) :
    plainOk p = true ∧ p ≠ []
    ∧ p.head?.all (fun c => !isWordChar c) = true
    ∧ p.getLast?.all (fun c => !isWordChar c) = true
    ∧ (spanP isPySpace p).2 ≠ [] := by
  simp only [midPlain, Bool.and_eq_true, Bool.not_eq_true'] at h
  exact ⟨h.1.1.1.1, ne_nil_of_not_empty h.1.1.1.2, h.1.1.2, h.1.2,
    ne_nil_of_not_empty h.2⟩

theorem all_space_last_nonword (sp : List Char) (h : ∀ x ∈ sp, isPySpace x = true) :
    sp.getLast?.all (fun c => !isWordChar c) = true := by
  cases hg : sp.getLast? with
  | none => rfl
  | some c =>
    have hc : c ∈ sp := mem_of_getLast_eq hg
    simp [Option.all_some, space_not_word c (h c hc)]

theorem plain_span_drop_not_upper (p : List Char) (hp : plainOk p = true) :
    ∀ c, (spanP isPySpace p).2.head? = some c → c.isUpper = false := by
  intro c hc
  exact (plainOk_elim p hp c (spanP_drop_mem _ _ _ (mem_of_head_eq hc))).1

theorem mid_span_not_upper (p Z : List Char) (hp : plainOk p = true)
    (hs : (spanP isPySpace p).2 ≠ []) :
    ∀ c, (spanP isPySpace (p ++ Z)).2.head? = some c → c.isUpper = false := by
  intro c hc
  have hc2 : ((spanP isPySpace p).2 ++ Z).head? = some c := by
    rw [spanP_append_left isPySpace p Z hs] at hc
    exact hc
  rw [head_append_of_ne _ _ hs] at hc2
  exact (plainOk_elim p hp c (spanP_drop_mem _ _ _ (mem_of_head_eq hc2))).1

theorem NameSeq.chars_len_pos (s : NameSeq) (h : s.ok = true) : 1 ≤ s.chars.length := by
  obtain ⟨hw0, _⟩ := NameSeq.ok_elim s h
  obtain ⟨c0, t0, hw0eq, _, _, _⟩ := capsShape_elim s.w0 hw0
  simp [NameSeq.chars, hw0eq]

theorem censorNames_redacted_seq (s : NameSeq) (Y : List Char) (fuel : Nat)
    (hok : s.ok = true) (hn : 2 ≤ s.rest.length)
    (hY1 : ∀ c, Y.head? = some c → isWordChar c = false)
    (hY2 : ∀ c, (spanP isPySpace Y).2.head? = some c → c.isUpper = false) :
    censorNames (fuel + 1) false (s.chars ++ Y)
      = "[REDACTED]".data ++ censorNames fuel true Y := by
  obtain ⟨hw0, hrest⟩ := NameSeq.ok_elim s hok
  obtain ⟨c0, t0, hw0eq, hc0, ht0, hl0⟩ := capsShape_elim s.w0 hw0
  have hm := matchNames_seq s.w0 s.rest Y hw0 hrest hY1 hY2
  rw [if_pos hn, hw0eq] at hm
  have hkey : s.chars ++ Y
      = c0 :: (t0 ++ (((s.rest.map fun p => p.1 ++ p.2).flatten) ++ Y)) := by
    simp [NameSeq.chars, hw0eq]
  have hm2 : matchNames (c0 :: (t0 ++ (((s.rest.map fun p => p.1 ++ p.2).flatten) ++ Y)))
      = some Y := by
    simpa [List.cons_append] using hm
  rw [hkey, censorNames_match_head c0 _ Y fuel hc0 hm2]

theorem censorNames_kept_word (c0 : Char) (t0 : List Char) (Y : List Char)
    (hc0 : c0.isUpper = true) (ht0 : ∀ x ∈ t0, x.isLower = true) (hl0 : 2 ≤ t0.length)
    (hY1 : ∀ c, Y.head? = some c → isWordChar c = false)
    (hY2 : ∀ c, (spanP isPySpace Y).2.head? = some c → c.isUpper = false) :
    ∀ (fuel : Nat) (b : Bool),
      censorNames ((c0 :: t0).length + fuel) b ((c0 :: t0) ++ Y)
        = (c0 :: t0) ++ censorNames fuel true Y := by
  have h0 : capsShape (c0 :: t0) = true := by
    simp only [capsShape, Bool.and_eq_true, decide_eq_true_eq, List.all_eq_true]
    exact ⟨⟨hc0, ht0⟩, hl0⟩
  have ht0ne : t0 ≠ [] := by
    intro h
    rw [h] at hl0
    simp at hl0
  have hm := matchNames_seq (c0 :: t0) [] Y h0 (by simp) hY1 hY2
  rw [if_neg (by simp)] at hm
  simp only [List.map_nil, List.flatten_nil, List.nil_append] at hm
  have hm2 : matchNames (c0 :: (t0 ++ Y)) = none := by
    simpa [List.cons_append] using hm
  intro fuel b
  have hL : (c0 :: t0).length + fuel = (t0.length + fuel) + 1 := by
    simp
    omega
  rw [hL, List.cons_append, censorNames_nomatch_head c0 (t0 ++ Y) (t0.length + fuel) b hm2]
  rw [censorNames_lower_walk t0 ht0 ht0ne fuel (isWordChar c0) Y]
  simp

theorem censorNames_kept_pair (c0 : Char) (t0 sp : List Char) (c1 : Char)
    (t1 : List Char) (Y : List Char)
    (hc0 : c0.isUpper = true) (ht0 : ∀ x ∈ t0, x.isLower = true) (hl0 : 2 ≤ t0.length)
    (hspne : sp ≠ []) (hsp : ∀ x ∈ sp, isPySpace x = true)
    (hc1 : c1.isUpper = true) (ht1 : ∀ x ∈ t1, x.isLower = true) (hl1 : 2 ≤ t1.length)
    (hY1 : ∀ c, Y.head? = some c → isWordChar c = false)
    (hY2 : ∀ c, (spanP isPySpace Y).2.head? = some c → c.isUpper = false) :
    ∀ (fuel : Nat) (b : Bool),
      censorNames (((c0 :: t0) ++ (sp ++ (c1 :: t1))).length + fuel) b
          (((c0 :: t0) ++ (sp ++ (c1 :: t1))) ++ Y)
        = ((c0 :: t0) ++ (sp ++ (c1 :: t1))) ++ censorNames fuel true Y := by
  have h0 : capsShape (c0 :: t0) = true := by
    simp only [capsShape, Bool.and_eq_true, decide_eq_true_eq, List.all_eq_true]
    exact ⟨⟨hc0, ht0⟩, hl0⟩
  have h1 : capsShape (c1 :: t1) = true := by
    simp only [capsShape, Bool.and_eq_true, decide_eq_true_eq, List.all_eq_true]
    exact ⟨⟨hc1, ht1⟩, hl1⟩
  have ht0ne : t0 ≠ [] := by
    intro h
    rw [h] at hl0
    simp at hl0
  have ht1ne : t1 ≠ [] := by
    intro h
    rw [h] at hl1
    simp at hl1
  have hsp_nu : ∀ x ∈ sp, x.isUpper = false := fun x hx => space_not_upper x (hsp x hx)
  have hmB := matchNames_seq (c0 :: t0) [(sp, c1 :: t1)] Y h0
    (by
      intro p hp
      simp only [List.mem_singleton] at hp
      subst hp
      exact ⟨hspne, hsp, h1⟩)
    hY1 hY2
  rw [if_neg (by simp)] at hmB
  simp only [List.map_cons, List.map_nil, List.flatten_cons, List.flatten_nil,
    List.append_nil] at hmB
  have hmB2 : matchNames (c0 :: (t0 ++ (sp ++ ((c1 :: t1) ++ Y)))) = none := by
    simpa [List.cons_append, List.append_assoc] using hmB
  have hm1 := matchNames_seq (c1 :: t1) [] Y h1 (by simp) hY1 hY2
  rw [if_neg (by simp)] at hm1
  simp only [List.map_nil, List.flatten_nil, List.nil_append] at hm1
  have hm12 : matchNames (c1 :: (t1 ++ Y)) = none := by
    simpa [List.cons_append] using hm1
  intro fuel b
  have hL : ((c0 :: t0) ++ (sp ++ (c1 :: t1))).length + fuel
      = (t0.length + (sp.length + ((t1.length + fuel) + 1))) + 1 := by
    simp
    omega
  have hin : ((c0 :: t0) ++ (sp ++ (c1 :: t1))) ++ Y
      = c0 :: (t0 ++ (sp ++ ((c1 :: t1) ++ Y))) := by
    simp
  rw [hL, hin]
  rw [censorNames_nomatch_head c0 _ (t0.length + (sp.length + ((t1.length + fuel) + 1)))
    b hmB2]
  rw [censorNames_lower_walk t0 ht0 ht0ne (sp.length + ((t1.length + fuel) + 1))
    (isWordChar c0) (sp ++ ((c1 :: t1) ++ Y))]
  rw [censorNames_plain_walk sp hsp_nu ((t1.length + fuel) + 1) true ((c1 :: t1) ++ Y)]
  rw [pFlag_of_getLast_nonword sp true hspne (all_space_last_nonword sp hsp)]
  rw [show (c1 :: t1) ++ Y = c1 :: (t1 ++ Y) from rfl]
  rw [censorNames_nomatch_head c1 (t1 ++ Y) (t1.length + fuel) false hm12]
  rw [censorNames_lower_walk t1 ht1 ht1ne fuel (isWordChar c1) Y]
  simp

theorem censorNames_kept_seq (s : NameSeq) (Y : List Char)
    (hok : s.ok = true) (hn : ¬ 2 ≤ s.rest.length)
    (hY1 : ∀ c, Y.head? = some c → isWordChar c = false)
    (hY2 : ∀ c, (spanP isPySpace Y).2.head? = some c → c.isUpper = false) :
    ∀ (fuel : Nat) (b : Bool),
      censorNames (s.chars.length + fuel) b (s.chars ++ Y)
        = s.chars ++ censorNames fuel true Y := by
  obtain ⟨hw0, hrest⟩ := NameSeq.ok_elim s hok
  obtain ⟨c0, t0, hw0eq, hc0, ht0, hl0⟩ := capsShape_elim s.w0 hw0
  rcases hsr : s.rest with _ | ⟨⟨sp, w1⟩, rest2⟩
  · have hchars : s.chars = c0 :: t0 := by
      simp [NameSeq.chars, hw0eq, hsr]
    rw [hchars]
    exact censorNames_kept_word c0 t0 Y hc0 ht0 hl0 hY1 hY2
  · rcases rest2 with _ | ⟨p2, rest3⟩
    · obtain ⟨hspne, hspall, hw1⟩ := hrest (sp, w1) (by rw [hsr]; simp)
      obtain ⟨c1, t1, hw1eq, hc1, ht1, hl1⟩ := capsShape_elim w1 hw1
      have hchars : s.chars = (c0 :: t0) ++ (sp ++ (c1 :: t1)) := by
        simp [NameSeq.chars, hw0eq, hsr, hw1eq]

      rw [hchars]
      exact censorNames_kept_pair c0 t0 sp c1 t1 Y hc0 ht0 hl0 hspne hspall
        hc1 ht1 hl1 hY1 hY2
    · exfalso
      apply hn
      rw [hsr]
      simp

theorem censorNames_blocks :
    ∀ (blocks : List (NameSeq × List Char)) (fuel : Nat),
      blocksOk blocks = true →
      censorNames ((namesBody blocks).length + fuel) false (namesBody blocks)
        = namesBodyOut blocks := by
  intro blocks
  induction blocks with
  | nil =>
    intro fuel _
    simp [namesBody, namesBodyOut, censorNames_nil]
  | cons b rest ih =>
    obtain ⟨s, p⟩ := b
    intro fuel hok
    cases rest with
    | nil =>
      have h2 : (s.ok && tailPlain p) = true := hok
      rw [Bool.and_eq_true] at h2
      obtain ⟨hsok, htail⟩ := h2
      obtain ⟨hppl, hhead⟩ := tailPlain_elim p htail
      have hpnu : ∀ x ∈ p, x.isUpper = false := fun x hx => (plainOk_elim p hppl x hx).1
      have hY1 : ∀ c, p.head? = some c → isWordChar c = false := option_all_not_elim hhead
      have hY2 : ∀ c, (spanP isPySpace p).2.head? = some c → c.isUpper = false :=
        plain_span_drop_not_upper p hppl
      have hbody : namesBody [(s, p)] = s.chars ++ p := by
        simp [namesBody]
      have hout : namesBodyOut [(s, p)] = s.out ++ p := by
        simp [namesBodyOut]
      rw [hbody, hout]
      have hC : 1 ≤ s.chars.length := NameSeq.chars_len_pos s hsok
      by_cases hn : 2 ≤ s.rest.length
      · have hF : (s.chars ++ p).length + fuel
            = (p.length + ((s.chars.length - 1) + fuel)) + 1 := by
          simp only [List.length_append]
          omega
        rw [hF, censorNames_redacted_seq s p (p.length + ((s.chars.length - 1) + fuel))
          hsok hn hY1 hY2]
        rw [censorNames_no_upper _ p true hpnu]
        simp [NameSeq.out, hn]
      · have hF : (s.chars ++ p).length + fuel = s.chars.length + (p.length + fuel) := by
          simp only [List.length_append]
          omega
        rw [hF, censorNames_kept_seq s p hsok hn hY1 hY2 (p.length + fuel) false]
        rw [censorNames_no_upper _ p true hpnu]
        simp [NameSeq.out, hn]
    | cons b2 rest2 =>
      have h2 : (s.ok && midPlain p && blocksOk (b2 :: rest2)) = true := hok
      rw [Bool.and_eq_true, Bool.and_eq_true] at h2
      obtain ⟨⟨hsok, hmid⟩, hrok⟩ := h2
      obtain ⟨hppl, hpne, hhead, hlast, hspan⟩ := midPlain_elim p hmid
      have hpnu : ∀ x ∈ p, x.isUpper = false := fun x hx => (plainOk_elim p hppl x hx).1
      have hY1 : ∀ c, (p ++ namesBody (b2 :: rest2)).head? = some c →
          isWordChar c = false := by
        intro c hc
        rw [head_append_of_ne p _ hpne] at hc
        exact option_all_not_elim hhead c hc
      have hY2 : ∀ c, (spanP isPySpace (p ++ namesBody (b2 :: rest2))).2.head? = some c →
          c.isUpper = false := mid_span_not_upper p _ hppl hspan
      have hpf : pFlag p true = false := pFlag_of_getLast_nonword p true hpne hlast
      have hbody : namesBody ((s, p) :: b2 :: rest2)
          = s.chars ++ (p ++ namesBody (b2 :: rest2)) := by
        simp [namesBody]
      rw [hbody]
      have hC : 1 ≤ s.chars.length := NameSeq.chars_len_pos s hsok
      by_cases hn : 2 ≤ s.rest.length
      · have hF : (s.chars ++ (p ++ namesBody (b2 :: rest2))).length + fuel
            = (p.length + ((namesBody (b2 :: rest2)).length
                + ((s.chars.length - 1) + fuel))) + 1 := by
          simp only [List.length_append]
          omega
        rw [hF]
        rw [censorNames_redacted_seq s (p ++ namesBody (b2 :: rest2))
          (p.length + ((namesBody (b2 :: rest2)).length + ((s.chars.length - 1) + fuel)))
          hsok hn hY1 hY2]
        rw [censorNames_plain_walk p hpnu
          ((namesBody (b2 :: rest2)).length + ((s.chars.length - 1) + fuel)) true
          (namesBody (b2 :: rest2))]
        rw [hpf, ih ((s.chars.length - 1) + fuel) hrok]
        simp [namesBodyOut, NameSeq.out, hn]
      · have hF : (s.chars ++ (p ++ namesBody (b2 :: rest2))).length + fuel
            = s.chars.length + (p.length + ((namesBody (b2 :: rest2)).length + fuel)) := by
          simp only [List.length_append]
          omega
        rw [hF]
        rw [censorNames_kept_seq s (p ++ namesBody (b2 :: rest2)) hsok hn hY1 hY2
          (p.length + ((namesBody (b2 :: rest2)).length + fuel)) false]
        rw [censorNames_plain_walk p hpnu ((namesBody (b2 :: rest2)).length + fuel) true
          (namesBody (b2 :: rest2))]
        rw [hpf, ih fuel hrok]
        simp [namesBodyOut, NameSeq.out, hn]

theorem censorNames_general (p0 : List Char) (blocks : List (NameSeq × List Char))
    (h0 : leadPlain p0 = true) (hb : blocksOk blocks = true) :
    censorNames (namesText p0 blocks).length false (namesText p0 blocks)
      = namesTextOut p0 blocks := by
  simp only [leadPlain, Bool.and_eq_true] at h0
  obtain ⟨hplain, hlast⟩ := h0
  have hpnu : ∀ x ∈ p0, x.isUpper = false := fun x hx => (plainOk_elim p0 hplain x hx).1
  have hpf : pFlag p0 false = false := by
    cases hp0e : p0 with
    | nil => rfl
    | cons x t =>
      rw [← hp0e]
      refine pFlag_of_getLast_nonword p0 false ?_ hlast
      rw [hp0e]
      exact List.cons_ne_nil x t
  have hlen : (namesText p0 blocks).length
      = p0.length + ((namesBody blocks).length + 0) := by
    simp [namesText]
  rw [hlen, show namesText p0 blocks = p0 ++ namesBody blocks from rfl]
  rw [censorNames_plain_walk p0 hpnu ((namesBody blocks).length + 0) false
    (namesBody blocks)]
  rw [hpf, censorNames_blocks blocks 0 hb]
  rfl

theorem capsShape_no_at (w : List Char) (h : capsShape w = true) : ∀ x ∈ w, x ≠ '@' := by
  obtain ⟨c, t, rfl, hc, ht, _⟩ := capsShape_elim w h
  intro x hx
  rcases List.mem_cons.mp hx with rfl | hx
  · exact upper_ne_at x hc
  · exact lower_ne_at x (ht x hx)

theorem NameSeq.chars_no_at (s : NameSeq) (h : s.ok = true) : ∀ x ∈ s.chars, x ≠ '@' := by
  obtain ⟨hw0, hrest⟩ := NameSeq.ok_elim s h
  intro x hx
  simp only [NameSeq.chars, List.mem_append] at hx
  rcases hx with hx | hx
  · exact capsShape_no_at s.w0 hw0 x hx
  · rw [List.mem_flatten] at hx
    obtain ⟨l, hl, hxl⟩ := hx
    rw [List.mem_map] at hl
    obtain ⟨pr, hpr, rfl⟩ := hl
    obtain ⟨_, hsp, hw⟩ := hrest pr hpr
    rcases List.mem_append.mp hxl with hx1 | hx2
    · exact space_ne_at x (hsp x hx1)
    · exact capsShape_no_at pr.2 hw x hx2

theorem namesBodyOut_no_at :
    ∀ (blocks : List (NameSeq × List Char)), blocksOk blocks = true →
      ∀ x ∈ namesBodyOut blocks, x ≠ '@' := by
  intro blocks
  induction blocks with
  | nil =>
    intro _ x hx
    simp [namesBodyOut] at hx
  | cons b rest ih =>
    obtain ⟨s, p⟩ := b
    intro hok x hx
    have hcond : s.ok = true ∧ plainOk p = true ∧ blocksOk rest = true := by
      cases rest with
      | nil =>
        have h2 : (s.ok && tailPlain p) = true := hok
        rw [Bool.and_eq_true] at h2
        exact ⟨h2.1, (tailPlain_elim p h2.2).1, rfl⟩
      | cons b2 r2 =>
        have h2 : (s.ok && midPlain p && blocksOk (b2 :: r2)) = true := hok
        rw [Bool.and_eq_true, Bool.and_eq_true] at h2
        exact ⟨h2.1.1, (midPlain_elim p h2.1.2).1, h2.2⟩
    obtain ⟨hsok, hppl, hrok⟩ := hcond
    have hbody : namesBodyOut ((s, p) :: rest) = (s.out ++ p) ++ namesBodyOut rest := by
      simp [namesBodyOut]
    rw [hbody] at hx
    rcases List.mem_append.mp hx with hx | hx
    · rcases List.mem_append.mp hx with hx | hx
      · by_cases hn : 2 ≤ s.rest.length
        · simp only [NameSeq.out, if_pos hn] at hx
          have hred : ∀ y ∈ "[REDACTED]".data, y ≠ '@' := by decide
          exact hred x hx
        · simp only [NameSeq.out, if_neg hn] at hx
          exact NameSeq.chars_no_at s hsok x hx
      · exact (plainOk_elim p hppl x hx).2
    · exact ih hrok x hx

theorem namesTextOut_no_at (p0 : List Char) (blocks : List (NameSeq × List Char))
    (h0 : leadPlain p0 = true) (hb : blocksOk blocks = true) :
    ∀ x ∈ namesTextOut p0 blocks, x ≠ '@' := by
  intro x hx
  simp only [namesTextOut, List.mem_append] at hx
  rcases hx with hx | hx
  · have hplain : plainOk p0 = true := by
      simp only [leadPlain, Bool.and_eq_true] at h0
      exact h0.1
    exact (plainOk_elim p0 hplain x hx).2
  · exact namesBodyOut_no_at blocks hb x hx

theorem censor_pii_names_part (p0 : List Char) (blocks : List (NameSeq × List Char))
    (h0 : leadPlain p0 = true) (hb : blocksOk blocks = true) :
    censor_pii (String.mk (namesText p0 blocks)) = String.mk (namesTextOut p0 blocks) := by
  have hdata : (String.mk (namesText p0 blocks)).data = namesText p0 blocks := rfl
  simp only [censor_pii, hdata]
  rw [censorNames_general p0 blocks h0 hb]
  rw [censorEmails_no_at _ _ (namesTextOut_no_at p0 blocks h0 hb)]

theorem emailOk_elim (e : EmailPat) (h : e.ok = true) :
    e.loc ≠ [] ∧ (∀ x ∈ e.loc, isLocalChar x = true ∧ x.isUpper = false)
    ∧ e.dom ≠ [] ∧ (∀ x ∈ e.dom, isDomChar x = true ∧ x.isUpper = false)
    ∧ e.tld ≠ [] ∧ (∀ x ∈ e.tld, isTldChar x = true ∧ x.isUpper = false) := by
  simp only [EmailPat.ok, Bool.and_eq_true, Bool.not_eq_true', List.all_eq_true] at h
  exact ⟨ne_nil_of_not_empty h.1.1.1.1.1, h.1.1.1.1.2,
    ne_nil_of_not_empty h.1.1.1.2, h.1.1.2, ne_nil_of_not_empty h.1.2, h.2⟩

theorem midQ_elim (q : List Char) (h : midQ q = true) :
    plainOk q = true ∧ q ≠ []
    ∧ q.head?.all (fun c => !isTldChar c) = true
    ∧ q.getLast?.all (fun c => !isLocalChar c) = true := by
  simp only [midQ, Bool.and_eq_true, Bool.not_eq_true'] at h
  exact ⟨h.1.1.1, ne_nil_of_not_empty h.1.1.2, h.1.2, h.2⟩

theorem tailQ_elim (q : List Char) (h : tailQ q = true) :
    plainOk q = true ∧ q.head?.all (fun c => !isTldChar c) = true := by
  simp only [tailQ, Bool.and_eq_true] at h
  exact h

theorem matchEmail_split_cont (l d t Y : List Char)
    (hl : l ≠ []) (hd : d ≠ []) (ht : t ≠ [])
    (hlc : ∀ x ∈ l, isLocalChar x = true) (hdc : ∀ x ∈ d, isDomChar x = true)
    (htc : ∀ x ∈ t, isTldChar x = true)
    (hY : ∀ c, Y.head? = some c → isTldChar c = false) :
    matchEmail ((l ++ ('@' :: (d ++ ('.' :: t)))) ++ Y) = some Y := by
  have hsp1 : spanP isLocalChar (l ++ ('@' :: (d ++ ('.' :: (t ++ Y)))))
      = (l, '@' :: (d ++ ('.' :: (t ++ Y)))) :=
    spanP_split _ _ _ hlc (by intro x hx; simp at hx; subst hx; decide)
  have hsp2 : spanP isDomChar (d ++ ('.' :: (t ++ Y))) = (d, '.' :: (t ++ Y)) :=
    spanP_split _ _ _ hdc (by intro x hx; simp at hx; subst hx; decide)
  have hsp3 : spanP isTldChar (t ++ Y) = (t, Y) := spanP_split _ _ _ htc hY
  have hin : (l ++ ('@' :: (d ++ ('.' :: t)))) ++ Y
      = l ++ ('@' :: (d ++ ('.' :: (t ++ Y)))) := by
    simp
  rw [hin]
  simp [matchEmail, hsp1, hsp2, hsp3, hl, hd, ht]

theorem matchEmail_none_head_blocked (q Y : List Char)
    (hne : q ≠ [])
    (hq : ∀ x ∈ q, x ≠ '@')
    (hlast : q.getLast?.all (fun c => !isLocalChar c) = true) :
    matchEmail (q ++ Y) = none := by
  obtain ⟨c, rest0, hsp, hmem, hpc⟩ := spanP_stops_inside isLocalChar q Y hne hlast
  rcases hsp2 : spanP isLocalChar (q ++ Y) with ⟨loc, r1⟩
  rw [hsp2] at hsp
  have hr1 : r1 = c :: rest0 := hsp
  by_cases hloc : loc = []
  · simp [matchEmail, hsp2, hloc]
  · have hc : c ≠ '@' := hq c hmem
    simp only [matchEmail, hsp2, hloc, if_false]
    rw [hr1]
    split
    · next heq => exact absurd (List.head_eq_of_cons_eq heq) hc
    · rfl

theorem censorEmails_nomatch_head (c : Char) (rest : List Char) (fuel : Nat)
    (hm : matchEmail (c :: rest) = none) :
    censorEmails (fuel + 1) (c :: rest) = c :: censorEmails fuel rest := by
  simp [censorEmails, hm]

theorem censorEmails_blocked_walk :
    ∀ (q : List Char) (fuel : Nat) (Y : List Char),
      q ≠ [] → (∀ x ∈ q, x ≠ '@') →
      q.getLast?.all (fun c => !isLocalChar c) = true →
      censorEmails (q.length + fuel) (q ++ Y) = q ++ censorEmails fuel Y := by
  intro q
  induction q with
  | nil =>
    intro fuel Y hne _ _
    exact absurd rfl hne
  | cons x q ih =>
    intro fuel Y _ hq hlast
    have hm : matchEmail (x :: (q ++ Y)) = none :=
      matchEmail_none_head_blocked (x :: q) Y (List.cons_ne_nil x q) hq hlast
    have hL : (x :: q).length + fuel = (q.length + fuel) + 1 := by
      simp
      omega
    rw [hL, List.cons_append, censorEmails_nomatch_head x (q ++ Y) (q.length + fuel) hm]
    cases q with
    | nil => simp
    | cons y q2 =>
      rw [ih fuel Y (List.cons_ne_nil y q2) (fun z hz => hq z (by simp [hz]))
        (by rwa [List.getLast?_cons_cons] at hlast)]
      simp

theorem emailChars_len_pos (e : EmailPat) (h : e.ok = true) : 1 ≤ e.chars.length := by
  obtain ⟨hlne, _, _, _, _, _⟩ := emailOk_elim e h
  cases hle : e.loc with
  | nil => exact absurd hle hlne
  | cons cl lt => simp [EmailPat.chars, hle]

theorem censorEmails_email_head (e : EmailPat) (Y : List Char) (fuel : Nat)
    (hok : e.ok = true)
    (hY : ∀ c, Y.head? = some c → isTldChar c = false) :
    censorEmails (fuel + 1) (e.chars ++ Y) = "[EMAIL]".data ++ censorEmails fuel Y := by
  obtain ⟨hlne, hloc, hdne, hdom, htne, htld⟩ := emailOk_elim e hok
  have hm : matchEmail ((e.loc ++ ('@' :: (e.dom ++ ('.' :: e.tld)))) ++ Y) = some Y :=
    matchEmail_split_cont e.loc e.dom e.tld Y hlne hdne htne
      (fun x hx => (hloc x hx).1) (fun x hx => (hdom x hx).1) (fun x hx => (htld x hx).1) hY
  obtain ⟨cl, lt, hle⟩ : ∃ cl lt, e.loc = cl :: lt := by
    cases hle : e.loc with
    | nil => exact absurd hle hlne
    | cons cl lt => exact ⟨cl, lt, rfl⟩
  rw [hle] at hm
  have hm2 : matchEmail (cl :: (lt ++ ('@' :: (e.dom ++ ('.' :: e.tld)) ++ Y))) = some Y := by
    simpa [List.cons_append, List.append_assoc] using hm
  have hchars : e.chars ++ Y = cl :: (lt ++ ('@' :: (e.dom ++ ('.' :: e.tld)) ++ Y)) := by
    simp [EmailPat.chars, hle]
  rw [hchars, censorEmails_match_head cl _ Y fuel hm2]

theorem censorEmails_blocks :
    ∀ (blocks : List (EmailPat × List Char)) (fuel : Nat),
      eblocksOk blocks = true →
      censorEmails ((emailsBody blocks).length + fuel) (emailsBody blocks)
        = emailsBodyOut blocks := by
  intro blocks
  induction blocks with
  | nil =>
    intro fuel _
    simp [emailsBody, emailsBodyOut, censorEmails_nil]
  | cons b rest ih =>
    obtain ⟨e, q⟩ := b
    intro fuel hok
    cases rest with
    | nil =>
      have h2 : (e.ok && tailQ q) = true := hok
      rw [Bool.and_eq_true] at h2
      obtain ⟨heok, htail⟩ := h2
      obtain ⟨hqpl, hhead⟩ := tailQ_elim q htail
      have hY : ∀ c, q.head? = some c → isTldChar c = false := option_all_not_elim hhead
      have hqnoat : ∀ x ∈ q, x ≠ '@' := fun x hx => (plainOk_elim q hqpl x hx).2
      have hbody : emailsBody [(e, q)] = e.chars ++ q := by
        simp [emailsBody]
      have hout : emailsBodyOut [(e, q)] = "[EMAIL]".data ++ q := by
        simp [emailsBodyOut]
      rw [hbody, hout]
      have hC : 1 ≤ e.chars.length := emailChars_len_pos e heok
      have hF : (e.chars ++ q).length + fuel
          = (q.length + ((e.chars.length - 1) + fuel)) + 1 := by
        simp only [List.length_append]
        omega
      rw [hF, censorEmails_email_head e q (q.length + ((e.chars.length - 1) + fuel))
        heok hY]
      rw [censorEmails_no_at _ q hqnoat]
    | cons b2 rest2 =>
      have h2 : (e.ok && midQ q && eblocksOk (b2 :: rest2)) = true := hok
      rw [Bool.and_eq_true, Bool.and_eq_true] at h2
      obtain ⟨⟨heok, hmid⟩, hrok⟩ := h2
      obtain ⟨hqpl, hqne, hhead, hlast⟩ := midQ_elim q hmid
      have hqnoat : ∀ x ∈ q, x ≠ '@' := fun x hx => (plainOk_elim q hqpl x hx).2
      have hY : ∀ c, (q ++ emailsBody (b2 :: rest2)).head? = some c →
          isTldChar c = false := by
        intro c hc
        rw [head_append_of_ne q _ hqne] at hc
        exact option_all_not_elim hhead c hc
      have hbody : emailsBody ((e, q) :: b2 :: rest2)
          = e.chars ++ (q ++ emailsBody (b2 :: rest2)) := by
        simp [emailsBody]
      rw [hbody]
      have hC : 1 ≤ e.chars.length := emailChars_len_pos e heok
      have hF : (e.chars ++ (q ++ emailsBody (b2 :: rest2))).length + fuel
          = (q.length + ((emailsBody (b2 :: rest2)).length
              + ((e.chars.length - 1) + fuel))) + 1 := by
        simp only [List.length_append]
        omega
      rw [hF]
      rw [censorEmails_email_head e (q ++ emailsBody (b2 :: rest2))
        (q.length + ((emailsBody (b2 :: rest2)).length + ((e.chars.length - 1) + fuel)))
        heok hY]
      rw [censorEmails_blocked_walk q
        ((emailsBody (b2 :: rest2)).length + ((e.chars.length - 1) + fuel))
        (emailsBody (b2 :: rest2)) hqne hqnoat hlast]
      rw [ih ((e.chars.length - 1) + fuel) hrok]
      simp [emailsBodyOut]

theorem censorEmails_general (q0 : List Char) (blocks : List (EmailPat × List Char))
    (h0 : leadQ q0 = true) (hb : eblocksOk blocks = true) :
    censorEmails (emailsText q0 blocks).length (emailsText q0 blocks)
      = emailsTextOut q0 blocks := by
  simp only [leadQ, Bool.and_eq_true] at h0
  obtain ⟨hplain, hlast⟩ := h0
  have hq0noat : ∀ x ∈ q0, x ≠ '@' := fun x hx => (plainOk_elim q0 hplain x hx).2
  have hB := censorEmails_blocks blocks 0 hb
  rw [Nat.add_zero] at hB
  cases hq0e : q0 with
  | nil =>
    rw [show emailsText [] blocks = emailsBody blocks from rfl,
      show emailsTextOut [] blocks = emailsBodyOut blocks from rfl]
    exact hB
  | cons x t =>
    rw [← hq0e]
    have hq0ne : q0 ≠ [] := by
      rw [hq0e]
      exact List.cons_ne_nil x t
    have hlen : (emailsText q0 blocks).length
        = q0.length + (emailsBody blocks).length := by
      simp [emailsText]
    rw [hlen, show emailsText q0 blocks = q0 ++ emailsBody blocks from rfl]
    rw [censorEmails_blocked_walk q0 (emailsBody blocks).length (emailsBody blocks)
      hq0ne hq0noat hlast]
    rw [hB]
    rfl

theorem EmailPat.chars_no_upper (e : EmailPat) (h : e.ok = true) :
    ∀ x ∈ e.chars, x.isUpper = false := by
  obtain ⟨_, hloc, _, hdom, _, htld⟩ := emailOk_elim e h
  intro x hx
  simp only [EmailPat.chars, List.mem_append, List.mem_cons] at hx
  rcases hx with hx | rfl | hx | rfl | hx
  · exact (hloc x hx).2
  · decide
  · exact (hdom x hx).2
  · decide
  · exact (htld x hx).2

theorem emailsBody_no_upper :
    ∀ (blocks : List (EmailPat × List Char)), eblocksOk blocks = true →
      ∀ x ∈ emailsBody blocks, x.isUpper = false := by
  intro blocks
  induction blocks with
  | nil =>
    intro _ x hx
    simp [emailsBody] at hx
  | cons b rest ih =>
    obtain ⟨e, q⟩ := b
    intro hok x hx
    have hcond : e.ok = true ∧ plainOk q = true ∧ eblocksOk rest = true := by
      cases rest with
      | nil =>
        have h2 : (e.ok && tailQ q) = true := hok
        rw [Bool.and_eq_true] at h2
        exact ⟨h2.1, (tailQ_elim q h2.2).1, rfl⟩
      | cons b2 r2 =>
        have h2 : (e.ok && midQ q && eblocksOk (b2 :: r2)) = true := hok
        rw [Bool.and_eq_true, Bool.and_eq_true] at h2
        exact ⟨h2.1.1, (midQ_elim q h2.1.2).1, h2.2⟩
    obtain ⟨heok, hqpl, hrok⟩ := hcond
    have hbody : emailsBody ((e, q) :: rest) = (e.chars ++ q) ++ emailsBody rest := by
      simp [emailsBody]
    rw [hbody] at hx
    rcases List.mem_append.mp hx with hx | hx
    · rcases List.mem_append.mp hx with hx | hx
      · exact EmailPat.chars_no_upper e heok x hx
      · exact (plainOk_elim q hqpl x hx).1
    · exact ih hrok x hx

theorem emailsText_no_upper (q0 : List Char) (blocks : List (EmailPat × List Char))
    (h0 : leadQ q0 = true) (hb : eblocksOk blocks = true) :
    ∀ x ∈ emailsText q0 blocks, x.isUpper = false := by
  intro x hx
  simp only [emailsText, List.mem_append] at hx
  rcases hx with hx | hx
  · have hplain : plainOk q0 = true := by
      simp only [leadQ, Bool.and_eq_true] at h0
      exact h0.1
    exact (plainOk_elim q0 hplain x hx).1
  · exact emailsBody_no_upper blocks hb x hx

theorem censor_pii_emails_part (q0 : List Char) (blocks : List (EmailPat × List Char))
    (h0 : leadQ q0 = true) (hb : eblocksOk blocks = true) :
    censor_pii (String.mk (emailsText q0 blocks)) = String.mk (emailsTextOut q0 blocks) := by
  have hdata : (String.mk (emailsText q0 blocks)).data = emailsText q0 blocks := rfl
  simp only [censor_pii, hdata]
  rw [censorNames_no_upper (emailsText q0 blocks).length (emailsText q0 blocks) false
    (emailsText_no_upper q0 blocks h0 hb)]
  rw [censorEmails_general q0 blocks h0 hb]

/-- C5 (amended): censor_pii replaces every maximal sequence of three or
more consecutive capitalized words — each an uppercase letter followed by
at least two lowercase letters, the words separated by nonempty whitespace
runs — with the REDACTED placeholder, and every email-address occurrence
with the EMAIL placeholder, leaving all other text unchanged; a sequence of
fewer than three such capitalized words is kept verbatim.  The input is an
arbitrary alternation of plain segments and pattern occurrences; the side
conditions (leadPlain, blocksOk, leadQ, eblocksOk) state exactly the
maximality of the decomposition: word boundaries around each sequence, no
uppercase letter inside a plain segment, a non-whitespace character
between neighbouring sequences, and character-class boundaries around each
email. -/
theorem censor_pii_sequences
    (p0 : List Char) (nb : List (NameSeq × List Char))
    (q0 : List Char) (eb : List (EmailPat × List Char))
    (hp0 : leadPlain p0 = true) (hnb : blocksOk nb = true)
    (hq0 : leadQ q0 = true) (heb : eblocksOk eb = true) :
    censor_pii (String.mk (namesText p0 nb)) = String.mk (namesTextOut p0 nb)
    ∧ censor_pii (String.mk (emailsText q0 eb)) = String.mk (emailsTextOut q0 eb) :=
  ⟨censor_pii_names_part p0 nb hp0 hnb, censor_pii_emails_part q0 eb hq0 heb⟩

/-- C5 witness: on a decomposition holding one three-word sequence with a
newline-based separator and one single-word sequence, embedded in other
text, the filter redacts exactly the three-word sequence; on a
decomposition holding two emails embedded in other text it replaces
exactly the two emails. -/
theorem censor_pii_sequences_witness :
    leadPlain "met ".data = true
    ∧ blocksOk [(⟨"John".data, [(" ".data, "Smith".data), ("\n ".data, "Does".data)]⟩,
        ", and ".data), (⟨"Alan".data, []⟩, " left.".data)] = true
    ∧ leadQ "mail ".data = true
    ∧ eblocksOk [(⟨"bob".data, "mail".data, "com".data⟩, " and ".data),
        (⟨"a.b".data, "x".data, "co.uk".data⟩, " now".data)] = true
    ∧ (censor_pii (String.mk (namesText "met ".data
          [(⟨"John".data, [(" ".data, "Smith".data), ("\n ".data, "Does".data)]⟩,
            ", and ".data), (⟨"Alan".data, []⟩, " left.".data)]))
        = String.mk (namesTextOut "met ".data
          [(⟨"John".data, [(" ".data, "Smith".data), ("\n ".data, "Does".data)]⟩,
            ", and ".data), (⟨"Alan".data, []⟩, " left.".data)])
      ∧ censor_pii (String.mk (emailsText "mail ".data
          [(⟨"bob".data, "mail".data, "com".data⟩, " and ".data),
            (⟨"a.b".data, "x".data, "co.uk".data⟩, " now".data)]))
        = String.mk (emailsTextOut "mail ".data
          [(⟨"bob".data, "mail".data, "com".data⟩, " and ".data),
            (⟨"a.b".data, "x".data, "co.uk".data⟩, " now".data)]))
    ∧ String.mk (namesText "met ".data
        [(⟨"John".data, [(" ".data, "Smith".data), ("\n ".data, "Does".data)]⟩,
          ", and ".data), (⟨"Alan".data, []⟩, " left.".data)])
      = "met John Smith\n Does, and Alan left."
    ∧ String.mk (namesTextOut "met ".data
        [(⟨"John".data, [(" ".data, "Smith".data), ("\n ".data, "Does".data)]⟩,
          ", and ".data), (⟨"Alan".data, []⟩, " left.".data)])
      = "met [REDACTED], and Alan left."
    ∧ String.mk (emailsText "mail ".data
        [(⟨"bob".data, "mail".data, "com".data⟩, " and ".data),
          (⟨"a.b".data, "x".data, "co.uk".data⟩, " now".data)])
      = "mail bob@mail.com and a.b@x.co.uk now"
    ∧ String.mk (emailsTextOut "mail ".data
        [(⟨"bob".data, "mail".data, "com".data⟩, " and ".data),
          (⟨"a.b".data, "x".data, "co.uk".data⟩, " now".data)])
      = "mail [EMAIL] and [EMAIL] now" :=
  ⟨by decide, by decide, by decide, by decide,
   censor_pii_sequences "met ".data
     [(⟨"John".data, [(" ".data, "Smith".data), ("\n ".data, "Does".data)]⟩,
       ", and ".data), (⟨"Alan".data, []⟩, " left.".data)]
     "mail ".data
     [(⟨"bob".data, "mail".data, "com".data⟩, " and ".data),
       (⟨"a.b".data, "x".data, "co.uk".data⟩, " now".data)]
     (by decide) (by decide) (by decide) (by decide),
   by decide, by decide, by decide, by decide⟩

end Zenith
